import Mathlib

/-!
# scorecard-commits: a verification development of `main.go`

The program lists the recent commits of a git repository, fetches the
scorecard of each commit and writes one row per commit to a warehouse table.

Conventions of the embedding.

* A Go `string` is a Lean `String`; the text algorithms of the Go standard
  library that the program calls (`strings.TrimSpace`, `strings.Split`,
  `strconv.ParseInt`, `strconv.Atoi`, `fmt.Sprintf`) work on its list of
  Unicode code points (`String.data`).  The separators the program uses
  (`,` and the newline), the decimal digits and the signs are ASCII, so on
  valid UTF-8 text splitting by bytes and splitting by code points agree.
* Machine integers are `Nat`/`Int` with explicit wrap-around where Go wraps.
* A `float64` is carried as its 64-bit pattern: the program only copies it.
* The collaborators (clock, `git`, HTTP, JSON decoder, warehouse) are the
  fields of a `World`, threaded through an explicit state.
-/

set_option linter.dupNamespace false

namespace ScorecardCommits

/-! ## Machine integers -/

/-- Two's-complement reduction of an integer to the `int64` range. -/
def wrapInt64 (i : Int) : Int := (i + 2 ^ 63) % 2 ^ 64 - 2 ^ 63

/-- Largest `uint64`. -/
def maxUint64 : Nat := 2 ^ 64 - 1

/-! ## `unicode.IsSpace`, `strings.TrimSpace`, `strings.Split` -/

/-- Go `unicode.IsSpace`: in Latin-1 the characters `\t \n \v \f \r`, space,
U+0085 and U+00A0; above Latin-1 the `White_Space` range table. -/
def isSpace (c : Char) : Bool :=
  let r := c.toNat
  if r ≤ 0xFF then
    r == 0x09 || r == 0x0A || r == 0x0B || r == 0x0C || r == 0x0D || r == 0x20 ||
      r == 0x85 || r == 0xA0
  else
    r == 0x1680 || (0x2000 ≤ r && r ≤ 0x200A) || r == 0x2028 || r == 0x2029 ||
      r == 0x202F || r == 0x205F || r == 0x3000

/-- Go `strings.TrimSpace`: the text without its leading and its trailing
white space. -/
def trimSpace (s : List Char) : List Char :=
  ((s.dropWhile isSpace).reverse.dropWhile isSpace).reverse

/-- Go `strings.Split(s, sep)` for a separator of one character: the pieces of
`s` between the occurrences of `sep`; a text without separator (the empty text
included) gives one piece. -/
def split (sep : Char) : List Char → List (List Char)
  | [] => [[]]
  | c :: cs =>
    if c = sep then [] :: split sep cs
    else
      match split sep cs with
      | [] => [[c]]
      | l :: ls => (c :: l) :: ls

/-! ## `strconv.ParseUint`, `strconv.ParseInt`, `strconv.Atoi` -/

/-- The two sentinel errors of `strconv`: `ErrSyntax` and `ErrRange`. -/
inductive NumErrKind
  | invalid
  | outOfRange
  deriving DecidableEq, Repr

/-- Go `'0' <= c && c <= '9'`. -/
def isDigit (c : Char) : Bool := 48 ≤ c.toNat && c.toNat ≤ 57

/-- The loop of `strconv.ParseUint` for base 10 and bit size 64: `n` is the
value read so far; on a range error Go returns `maxVal` with the error. -/
def parseUintLoop : List Char → Nat → Except NumErrKind Nat
  | [], n => .ok n
  | c :: cs, n =>
    if isDigit c then
      let d := c.toNat - 48
      -- cutoff = maxUint64/10 + 1: the smallest number with cutoff*10 > maxUint64
      if n ≥ maxUint64 / 10 + 1 then .error .outOfRange
      else
        let n10 := (n * 10) % 2 ^ 64
        let n1 := (n10 + d) % 2 ^ 64
        if n1 < n10 ∨ n1 > maxUint64 then .error .outOfRange
        else parseUintLoop cs n1
    else .error .invalid

/-- Go `strconv.ParseUint(s, 10, 64)`. -/
def parseUint (s : List Char) : Except NumErrKind Nat :=
  if s = [] then .error .invalid else parseUintLoop s 0

/-- Go `strconv.ParseInt(s, 10, 64)`: an optional sign, then `ParseUint`; the
magnitude must be below `2^63` (at most `2^63` under a minus sign). -/
def parseInt (s : List Char) : Except NumErrKind Int :=
  match s with
  | [] => .error .invalid
  | c :: cs =>
    let neg := c = '-'
    let rest := if c = '+' ∨ c = '-' then cs else s
    match parseUint rest with
    | .error .invalid => .error .invalid
    | r =>
      -- on a range error `un` is maxVal, which the cutoff tests reject
      let un := match r with
        | .ok un => un
        | .error _ => maxUint64
      let cutoff := 2 ^ 63
      if ¬ neg ∧ un ≥ cutoff then .error .outOfRange
      else if neg ∧ un > cutoff then .error .outOfRange
      else
        let n := wrapInt64 un
        .ok (if neg then wrapInt64 (-n) else n)

/-- Go `len(s)`: the number of bytes of the UTF-8 encoding. -/
def byteLen (s : List Char) : Nat := (s.map Char.utf8Size).sum

/-- One turn of the loop of the fast path of `strconv.Atoi`: `ch -= '0'`, a
byte above 9 is a syntax error, else `n = n*10 + int(ch)`. -/
def atoiStep (acc : Except NumErrKind Int) (ch : Char) : Except NumErrKind Int :=
  match acc with
  | .error e => .error e
  | .ok n =>
    if isDigit ch then .ok (wrapInt64 (wrapInt64 (n * 10) + ((ch.toNat - 48 : Nat) : Int)))
    else .error .invalid

/-- Go `strconv.Atoi(s)` on a 64-bit platform: a fast path for texts of 1 to 18
bytes and `ParseInt(s, 10, 0)` otherwise. -/
def atoi (s : List Char) : Except NumErrKind Int :=
  if 0 < byteLen s ∧ byteLen s < 19 then
    match s with
    | [] => .error .invalid
    | c :: cs =>
      let rest := if c = '-' ∨ c = '+' then cs else s
      if (c = '-' ∨ c = '+') ∧ rest.length < 1 then .error .invalid
      else
        match rest.foldl atoiStep (.ok 0) with
        | .error e => .error e
        | .ok n => .ok (if c = '-' then wrapInt64 (-n) else n)
  else parseInt s

/-! ## Decimal numerals, as the specification reads them -/

/-- The number written by a row of decimal digits. -/
def digitsValue (ds : List Char) : Nat :=
  ds.foldl (fun a c => a * 10 + (c.toNat - 48)) 0

/-- A non-empty row of decimal digits. -/
def isDigits (ds : List Char) : Bool := !ds.isEmpty && ds.all isDigit

/-- The integer written by a decimal numeral: an optional sign, then one or
more digits. -/
def decimalValue (s : List Char) : Option Int :=
  match s with
  | [] => none
  | c :: cs =>
    if c = '-' then (if isDigits cs then some (-(digitsValue cs : Int)) else none)
    else if c = '+' then (if isDigits cs then some (digitsValue cs : Int) else none)
    else if isDigits s then some (digitsValue s : Int) else none

/-! ## `fmt.Sprintf` -/

/-- The verbs of `fmt.Sprintf` that the program uses, over string operands:
`%s` writes the next operand unchanged, `%%` a percent sign, any other
character itself; a `%s` without operand writes `%!s(MISSING)`. -/
def sprintfAux : List Char → List String → List Char
  | [], _ => []
  | '%' :: 's' :: fmt, a :: args => a.data ++ sprintfAux fmt args
  | '%' :: 's' :: fmt, [] => "%!s(MISSING)".data ++ sprintfAux fmt []
  | '%' :: '%' :: fmt, args => '%' :: sprintfAux fmt args
  | c :: fmt, args => c :: sprintfAux fmt args

/-- Go `fmt.Sprintf(format, args...)` for string operands. -/
def sprintf (format : String) (args : List String) : String :=
  String.mk (sprintfAux format.data args)

/-! ## `time.Time` -/

/-- Go `time.Time` without a monotonic reading: `wall` holds the nanoseconds
within the second, `ext` the seconds since January 1 of year 1 (an `int64`).
The location is always `Local` in this program and is left out. -/
structure Time where
  wall : Nat
  ext : Int
  deriving DecidableEq, Repr

/-- Seconds from year 1 to 1970: Go's `unixToInternal`. -/
def unixToInternal : Int := (1969 * 365 + 1969 / 4 - 1969 / 100 + 1969 / 400) * 86400

/-- Go `time.Unix(sec, nsec)`. -/
def timeUnix (sec nsec : Int) : Time :=
  let (sec, nsec) :=
    if nsec < 0 ∨ nsec ≥ 1000000000 then
      let n := Int.tdiv nsec 1000000000
      let sec := wrapInt64 (sec + n)
      let nsec := nsec - n * 1000000000
      if nsec < 0 then (wrapInt64 (sec - 1), nsec + 1000000000) else (sec, nsec)
    else (sec, nsec)
  { wall := nsec.toNat, ext := wrapInt64 (sec + unixToInternal) }

/-- Go `t.Unix()`: the seconds elapsed since the Unix epoch. -/
def Time.unixSec (t : Time) : Int := wrapInt64 (t.ext - unixToInternal)

/-- Go `t.Nanosecond()`. -/
def Time.nanosecond (t : Time) : Nat := t.wall

/-! ## The data model of `main.go` -/

/-- A `float64`, as its IEEE-754 bit pattern. -/
structure Float64 where
  bits : Nat
  deriving DecidableEq, Repr

/-- Field `Repo` of `ScorecardData`. -/
structure DataRepo where
  Name : String
  Commit : String
  deriving DecidableEq, Repr

/-- Field `Scorecard` of `ScorecardData`. -/
structure DataScorecard where
  Version : String
  Commit : String
  deriving DecidableEq, Repr

/-- Field `Documentation` of a check. -/
structure Documentation where
  Short : String
  Url : String
  deriving DecidableEq, Repr

/-- Element type of `Checks`, the same type in `ScorecardData` and in
`ScorecardRow`. -/
structure Check where
  Name : String
  Score : Int
  Reason : String
  Details : List String
  Documentation : Documentation
  deriving DecidableEq, Repr

structure ScorecardData where
  Date : Time
  Repo : DataRepo
  Scorecard : DataScorecard
  Score : Float64
  Checks : List Check
  deriving DecidableEq, Repr

structure ScoreCardVersion where
  Version : String
  Commit : String
  deriving DecidableEq, Repr

structure Commit where
  Commit : String
  Date : Time
  deriving DecidableEq, Repr

structure RepoData where
  Name : String
  Commit : String
  Date : Time
  deriving DecidableEq, Repr

/-- Field `Repo` of `ScorecardRow`. -/
structure RowRepo where
  Name : String
  Commit : String
  deriving DecidableEq, Repr

/-- Field `Scorecard` of `ScorecardRow`. -/
structure RowScorecard where
  Version : String
  Commit : String
  deriving DecidableEq, Repr

structure ScorecardRow where
  Date : Time
  Repo : RowRepo
  Scorecard : RowScorecard
  Score : Float64
  Checks : List Check
  deriving DecidableEq, Repr

/-! ## Errors, collaborators and the observable trace -/

/-- A Go `error` value. -/
inductive GoError
  /-- An error made by a collaborator -/
  | external (msg : String)
  /-- A `*strconv.NumError` -/
  | numError (fn : String) (num : String) (kind : NumErrKind)
  /-- The value of `fmt.Errorf(msg ++ "%w", inner)` -/
  | wrapped (msg : String) (inner : GoError)
  deriving DecidableEq, Repr

deriving instance DecidableEq for Except

/-- The collaborators of the program over a state `σ` of the outside world. -/
structure World (σ : Type) where
  /-- Go `time.Now()` -/
  now : σ → Time × σ
  /-- Go `t.AddDate(years, months, days)` -/
  addDate : Time → Int → Int → Int → Time
  /-- Go `t.Format(layout)` -/
  format : Time → String → String
  /-- Go `exec.Command(name, args...)` with `cmd.Dir = dir`, then `cmd.Output()` -/
  output : σ → (name : String) → (args : List String) → (dir : String) →
    Except GoError String × σ
  /-- Go `http.Get(url)`: a handle of the response -/
  httpGet : σ → (url : String) → Except GoError Nat × σ
  /-- Go `io.ReadAll(resp.Body)` -/
  readAll : σ → (resp : Nat) → Except GoError (List UInt8) × σ
  /-- Go `resp.Body.Close()` -/
  closeBody : σ → (resp : Nat) → σ
  /-- Go `json.Unmarshal(body, &scorecardData)` on a zero `ScorecardData` -/
  unmarshal : List UInt8 → Except GoError ScorecardData
  /-- Go `bigquery.NewClient(ctx, projectID)`: a handle of the client -/
  newClient : σ → (projectID : String) → Except GoError Nat × σ
  /-- Go `client.Dataset(dataset).Table(table).Inserter().Put(ctx, row)` -/
  put : σ → (client : Nat) → (dataset table : String) → ScorecardRow → Option GoError × σ

/-- An operand of `fmt.Println` / `fmt.Printf`. -/
inductive PrintArg
  | str (s : String)
  | err (e : GoError)
  deriving DecidableEq, Repr

/-- What `main` does, as seen from outside: what it prints and the calls it
makes to the three functions of the program, each with the value returned. -/
inductive Event
  | println (args : List PrintArg)
  | printf (format : String) (args : List PrintArg)
  | getCommitsFromDate (repoDir : String) (date : Time)
      (result : Except GoError (List RepoData))
  | getScorecardData (project repo commitSHA : String)
      (result : Except GoError ScorecardData)
  | saveToBigQuery (row : ScorecardRow) (result : Option GoError)
  deriving DecidableEq

/-- The end of a run of `main`: the trace, the exit status and the world. -/
structure Outcome (σ : Type) where
  trace : List Event
  exitCode : Nat
  world : σ

/-! ## The functions of `main.go` -/

/-- The body of the loop over the lines in `getCommitsFromDate` (lines
159-172): `commits` is the slice built so far. -/
def parseLine (repoDir : String) (commits : List RepoData) (line : List Char) :
    List RepoData :=
  let parts := split ',' line
  if parts.length ≠ 2 then commits
  else
    let commit := parts.getD 0 []
    match parseInt (parts.getD 1 []) with
    | .error _ => commits
    | .ok commitTime =>
      commits ++ [{ Name := repoDir, Commit := String.mk commit, Date := timeUnix commitTime 0 }]

/-- Lines 157-175 of `getCommitsFromDate`: the records of a git output. -/
def parseOutput (repoDir : String) (output : String) : List RepoData :=
  (split '\n' (trimSpace output.data)).foldl (parseLine repoDir) []

/-- The argument list of the `git` command of `getCommitsFromDate`. -/
def gitArgs (since : String) : List String :=
  ["log", "--since", since, "--format=%H,%ct", "-n", "100"]

/-- Go `getCommitsFromDate(repoDir, date)`. -/
def getCommitsFromDate {σ : Type} (w : World σ) (repoDir : String) (date : Time) (s : σ) :
    Except GoError (List RepoData) × σ :=
  match w.output s "git" (gitArgs (w.format date "2006-01-02")) repoDir with
  | (.error err, s1) => (.error err, s1)
  | (.ok output, s1) => (.ok (parseOutput repoDir output), s1)

/-- Go `getScorecardData(project, repo, commitSHA)`. -/
def getScorecardData {σ : Type} (w : World σ) (project repo commitSHA : String) (s : σ) :
    Except GoError ScorecardData × σ :=
  let url := sprintf "https://api.securityscorecards.dev/projects/github.com/%s/%s?commit=%s"
    [project, repo, commitSHA]
  match w.httpGet s url with
  | (.error err, s1) => (.error (.wrapped "failed to get scorecard data: " err), s1)
  | (.ok resp, s1) =>
    match w.readAll s1 resp with
    | (.error err, s2) =>
      (.error (.wrapped "failed to read response body: " err), w.closeBody s2 resp)
    | (.ok body, s2) =>
      match w.unmarshal body with
      | .error err =>
        (.error (.wrapped "failed to unmarshal scorecard data: " err), w.closeBody s2 resp)
      | .ok scorecardData => (.ok scorecardData, w.closeBody s2 resp)

/-- Go `saveToBigQuery(ctx, row)`. -/
def saveToBigQuery {σ : Type} (w : World σ) (row : ScorecardRow) (s : σ) :
    Option GoError × σ :=
  match w.newClient s "openssf" with
  | (.error err, s1) => (some err, s1)
  | (.ok client, s1) =>
    match w.put s1 client "phren" "scorecard" row with
    | (some err, s2) => (some (.wrapped "failed to insert data into BigQuery: " err), s2)
    | (none, s2) => (none, s2)

/-- The row that `main` builds for a commit and its scorecard (lines 115-133). -/
def makeRow (project repo : String) (commit : RepoData) (scorecardData : ScorecardData) :
    ScorecardRow :=
  { Date := commit.Date
    Repo :=
      { Name := sprintf "github.com/%s/%s" [project, repo]
        Commit := commit.Commit }
    Scorecard :=
      { Version := scorecardData.Scorecard.Version
        Commit := scorecardData.Scorecard.Commit }
    Score := scorecardData.Score
    Checks := scorecardData.Checks }

/-- The body of the loop of `main` (lines 107-142) for one commit: the events
of the iteration and the world after it. -/
def mainLoopBody {σ : Type} (w : World σ) (project repo : String) (commit : RepoData)
    (s : σ) : List Event × σ :=
  match getScorecardData w project repo commit.Commit s with
  | (.error err, s1) =>
    ([.getScorecardData project repo commit.Commit (.error err),
      .println [.str "Error getting scorecard data:", .err err]], s1)
  | (.ok scorecardData, s1) =>
    let row := makeRow project repo commit scorecardData
    match saveToBigQuery w row s1 with
    | (some err, s2) =>
      ([.getScorecardData project repo commit.Commit (.ok scorecardData),
        .saveToBigQuery row (some err),
        .println [.str "Error saving to BigQuery:", .err err]], s2)
    | (none, s2) =>
      ([.getScorecardData project repo commit.Commit (.ok scorecardData),
        .saveToBigQuery row none,
        .printf "Data for commit %s saved to BigQuery successfully!\n" [.str commit.Commit]],
        s2)

/-- The loop of `main` (line 106, `for _, commit := range commits`). -/
def mainLoop {σ : Type} (w : World σ) (project repo : String) :
    List RepoData → σ → List Event × σ
  | [], s => ([], s)
  | commit :: rest, s =>
    let (events, s1) := mainLoopBody w project repo commit s
    let (later, s2) := mainLoop w project repo rest s1
    (events ++ later, s2)

/-- Lines 97-146 of `main`: the run once `days` is known. -/
def mainWithDays {σ : Type} (w : World σ) (repoDir project repo : String) (days : Int)
    (s : σ) : Outcome σ :=
  let (now, s1) := w.now s
  let date := w.addDate now 0 0 (wrapInt64 (-days))
  match getCommitsFromDate w repoDir date s1 with
  | (.error err, s2) =>
    { trace := [.getCommitsFromDate repoDir date (.error err),
                .println [.str "Error getting commits:", .err err]]
      exitCode := 0, world := s2 }
  | (.ok commits, s2) =>
    let (events, s3) := mainLoop w project repo commits s2
    { trace := .getCommitsFromDate repoDir date (.ok commits) :: events ++
                [.println [.str "All data saved to BigQuery successfully!"]]
      exitCode := 0, world := s3 }

/-- Go `main()`, with `osArgs` the value of `os.Args`. -/
def main {σ : Type} (w : World σ) (osArgs : List String) (s : σ) : Outcome σ :=
  let days : Int := 20
  if osArgs.length < 4 then
    { trace := [.println [.str "Usage: <executable> <repoDir> <project> <repo>"]]
      exitCode := 1, world := s }
  else
    let repoDir := osArgs.getD 1 ""
    let project := osArgs.getD 2 ""
    let repo := osArgs.getD 3 ""
    if osArgs.length > 4 then
      match atoi (osArgs.getD 4 "").data with
      | .error kind =>
        { trace := [.println [.str "Error parsing days:",
                      .err (.numError "Atoi" (osArgs.getD 4 "") kind)]]
          exitCode := 0, world := s }
      | .ok days => mainWithDays w repoDir project repo days s
    else mainWithDays w repoDir project repo days s

/-! ## Vocabulary of the statements -/

/-- The text whose lines are `ls`: the lines, with a newline between two
consecutive ones. -/
def joinLines : List (List Char) → List Char
  | [] => []
  | [l] => l
  | l :: ls => l ++ '\n' :: joinLines ls

/-- What one line of the git output adds to the result: the record of the
line, or nothing. -/
def lineRecord (repoDir : String) (line : List Char) : Option RepoData :=
  (parseLine repoDir [] line).head?

/-- A malformed line: it does not split on `,` into exactly two fields, or
`strconv.ParseInt` rejects its second field. -/
def isMalformed (line : List Char) : Bool :=
  (split ',' line).length != 2 ||
    (match parseInt ((split ',' line).getD 1 []) with
     | .ok _ => false
     | .error _ => true)

/-- A text with no leading and no trailing white space. -/
def isTrimmed (s : List Char) : Bool := trimSpace s == s

/-- The calls of a trace to `getScorecardData`, in order: the arguments. -/
def fetchCalls (trace : List Event) : List (String × String × String) :=
  trace.filterMap fun e =>
    match e with
    | .getScorecardData project repo sha _ => some (project, repo, sha)
    | _ => none

/-- The calls of a trace to `getScorecardData`, in order: the values returned. -/
def fetchResults (trace : List Event) : List (Except GoError ScorecardData) :=
  trace.filterMap fun e =>
    match e with
    | .getScorecardData _ _ _ result => some result
    | _ => none

/-- The scorecard documents that the fetches of a trace returned, in order. -/
def fetchedDocs (trace : List Event) : List ScorecardData :=
  (fetchResults trace).filterMap fun r =>
    match r with
    | .ok d => some d
    | .error _ => none

/-- The rows that a trace hands to `saveToBigQuery`, in order. -/
def savedRows (trace : List Event) : List ScorecardRow :=
  trace.filterMap fun e =>
    match e with
    | .saveToBigQuery row _ => some row
    | _ => none

/-- The row of a commit, if its fetch succeeded. -/
def rowIfFetched (project repo : String) (cr : RepoData × Except GoError ScorecardData) :
    Option ScorecardRow :=
  match cr.2 with
  | .ok d => some (makeRow project repo cr.1 d)
  | .error _ => none

/-- The calls of a trace to `saveToBigQuery`, in order: the row passed and the
value returned. -/
def saveCalls (trace : List Event) : List (ScorecardRow × Option GoError) :=
  trace.filterMap fun e =>
    match e with
    | .saveToBigQuery row result => some (row, result)
    | _ => none

/-- The driving loop as the specification words it, for one commit (run
Fetcher, Mapper, Writer; on failure continue): the scorecard is fetched in the
world `s`; when the fetch succeeds the row of the commit is written in the
world that the fetch leaves; the result is the world after these calls. -/
def expectedStep {σ : Type} (w : World σ) (project repo : String) (s : σ) (commit : RepoData) :
    σ :=
  match getScorecardData w project repo commit.Commit s with
  | (.error _, s1) => s1
  | (.ok d, s1) => (saveToBigQuery w (makeRow project repo commit d) s1).2

/-- The fetch results that the specification of the driving loop expects:
what `getScorecardData` returns for each commit, called in the world left by
the commits before it. -/
def expectedFetches {σ : Type} (w : World σ) (project repo : String) :
    List RepoData → σ → List (Except GoError ScorecardData)
  | [], _ => []
  | c :: cs, s =>
    (getScorecardData w project repo c.Commit s).1 ::
      expectedFetches w project repo cs (expectedStep w project repo s c)

/-- The writes that the specification of the driving loop expects, in order:
for each commit whose fetch succeeds, its row and what `saveToBigQuery` returns
for it, called in the world left by the fetch. -/
def expectedWrites {σ : Type} (w : World σ) (project repo : String) :
    List RepoData → σ → List (ScorecardRow × Option GoError)
  | [], _ => []
  | c :: cs, s =>
    match getScorecardData w project repo c.Commit s with
    | (.error _, _) => expectedWrites w project repo cs (expectedStep w project repo s c)
    | (.ok d, s1) =>
      (makeRow project repo c d, (saveToBigQuery w (makeRow project repo c d) s1).1) ::
        expectedWrites w project repo cs (expectedStep w project repo s c)

/-- A blank line: white space only (the empty line included). -/
def isBlank (l : List Char) : Bool := l.all isSpace

/-- A line with no leading white space. -/
def startsClean (l : List Char) : Bool :=
  match l.head? with
  | some c => !isSpace c
  | none => true

/-- A line with no trailing white space. -/
def endsClean (l : List Char) : Bool :=
  match l.getLast? with
  | some c => !isSpace c
  | none => true

/-- The first line that is not blank. -/
def firstNonBlank (ls : List (List Char)) : Option (List Char) :=
  ls.find? (fun l => !isBlank l)

/-- The last line that is not blank. -/
def lastNonBlank (ls : List (List Char)) : Option (List Char) :=
  firstNonBlank ls.reverse

/-- What trimming the leading white space of a text does to its lines: the
leading blank lines go, the first other line loses its leading white space. -/
def trimLinesLeft : List (List Char) → List (List Char)
  | [] => []
  | l :: ls => if isBlank l then trimLinesLeft ls else l.dropWhile isSpace :: ls

/-- What trimming the trailing white space of a text does to its lines: the
trailing blank lines go, the last other line loses its trailing white space. -/
def trimLinesRight : List (List Char) → List (List Char)
  | [] => []
  | l :: ls =>
    match trimLinesRight ls with
    | [] => if isBlank l then [] else [l.rdropWhile isSpace]
    | r :: rs => l :: r :: rs

/-! ## Sample worlds -/

/-- A world whose `git` prints `out` and whose other collaborators fail. -/
def gitWorld (out : String) : World Unit where
  now := fun s => (⟨0, 63835596800⟩, s)
  addDate := fun t _ _ d => ⟨t.wall, t.ext + d * 86400⟩
  format := fun _ _ => "2023-11-14"
  output := fun s _ _ _ => (.ok out, s)
  httpGet := fun s _ => (.error (.external "no network"), s)
  readAll := fun s _ => (.error (.external "no body"), s)
  closeBody := fun s _ => s
  unmarshal := fun _ => .error (.external "no document")
  newClient := fun s _ => (.error (.external "no client"), s)
  put := fun s _ _ _ _ => (some (.external "no table"), s)

/-- The number that the option `-n <number>` gives to `git log`, if the
argument list has the option; the value that follows `--since` is not read as
an option. -/
def maxCountArg : List String → Option Nat
  | [] => none
  | [_] => none
  | a :: v :: rest =>
    if a = "-n" then
      match parseInt v.data with
      | .ok n => some n.toNat
      | .error _ => none
    else if a = "--since" then maxCountArg rest
    else maxCountArg (v :: rest)

/-- The contract of `git log -n <k>` with a one-line `--format`: the output is
made of at most `k` lines, each ended by a newline. -/
def HonoursMaxCount {σ : Type} (w : World σ) : Prop :=
  ∀ (s : σ) (args : List String) (dir out : String) (s1 : σ) (k : Nat),
    w.output s "git" args dir = (.ok out, s1) → maxCountArg args = some k →
      (out.data = [] ∨ out.data.getLast? = some '\n') ∧ out.data.count '\n' ≤ k

/-- The text made of the lines `ls`, each ended by a newline. -/
def unlines : List (List Char) → List Char
  | [] => []
  | l :: ls => l ++ '\n' :: unlines ls

/-- What `git log` prints for a history whose commits, most recent first,
have the lines `history`: all the lines, or the first `k` under `-n <k>`. -/
def gitLogOutput (history : List (List Char)) (args : List String) : String :=
  match maxCountArg args with
  | some k => String.mk (unlines (history.take k))
  | none => String.mk (unlines history)

/-- A world whose `git` answers every command with the log of `history`. -/
def historyWorld (history : List (List Char)) : World Unit :=
  { gitWorld "" with output := fun s _ args _ => (.ok (gitLogOutput history args), s) }

/-- A history of 150 commits. -/
def longHistory : List (List Char) :=
  List.replicate 150 "c0ffee,1700000000".data



/-- The scorecard document of the samples: score 7.5, one check. -/
def sampleDoc : ScorecardData :=
  { Date := ⟨0, 63800000000⟩
    Repo := { Name := "github.com/other/name", Commit := "fedcba" }
    Scorecard := { Version := "v4.13.1", Commit := "49c0eed3a423f00c872b5c3c9f1bbca9e8aae799" }
    Score := ⟨0x401E000000000000⟩
    Checks :=
      [{ Name := "Binary-Artifacts", Score := 10, Reason := "no binaries found in the repo",
         Details := [], Documentation := { Short := "short", Url := "url" } }] }

/-- A world that counts the HTTP requests: the first `failing` requests fail,
the later ones answer with `sampleDoc`; the warehouse rejects the rows whose
commit is `rejected`. -/
def sampleWorld (failing : Nat) (rejected : String) : World Nat where
  now := fun s => (⟨0, 63835596800⟩, s)
  addDate := fun t _ _ d => ⟨t.wall, t.ext + d * 86400⟩
  format := fun _ _ => "2023-11-14"
  output := fun s _ _ _ => (.ok "abc123,1700000000\ndef456,1699990000\n", s)
  httpGet := fun s _ =>
    if s < failing then (.error (.external "timeout"), s + 1) else (.ok s, s + 1)
  readAll := fun s _ => (.ok [], s)
  closeBody := fun s _ => s
  unmarshal := fun _ => .ok sampleDoc
  newClient := fun s _ => (.ok 0, s)
  put := fun s _ _ _ row =>
    if row.Repo.Commit = rejected then (some (.external "rejected"), s) else (none, s)

/-- A call received by the HTTP service or by the warehouse. -/
inductive WorldCall
  | httpGet (url : String)
  | put (dataset table : String) (row : ScorecardRow)
  deriving DecidableEq

/-- A world that records, in order, the HTTP requests and the inserts it
receives: the first `failing` requests fail, the later ones answer with
`sampleDoc`; the warehouse rejects the rows whose commit is `rejected`. -/
def recordingWorld (failing : Nat) (rejected : String) : World (List WorldCall) where
  now := fun s => (⟨0, 63835596800⟩, s)
  addDate := fun t _ _ d => ⟨t.wall, t.ext + d * 86400⟩
  format := fun _ _ => "2023-11-14"
  output := fun s _ _ _ => (.ok "abc123,1700000000\ndef456,1699990000\n", s)
  httpGet := fun s url =>
    if s.countP (fun c => c matches .httpGet _) < failing then
      (.error (.external "timeout"), s ++ [.httpGet url])
    else (.ok 0, s ++ [.httpGet url])
  readAll := fun s _ => (.ok [], s)
  closeBody := fun s _ => s
  unmarshal := fun _ => .ok sampleDoc
  newClient := fun s _ => (.ok 0, s)
  put := fun s _ dataset table row =>
    if row.Repo.Commit = rejected then
      (some (.external "rejected"), s ++ [.put dataset table row])
    else (none, s ++ [.put dataset table row])

/-- The two commits of the samples. -/
def sampleCommits : List RepoData :=
  [{ Name := "repo", Commit := "abc123", Date := timeUnix 1700000000 0 },
   { Name := "repo", Commit := "def456", Date := timeUnix 1699990000 0 }]

/-! # Theorems -/

/-! ## Machine integers and decimal numerals -/

theorem wrapInt64_of_range (i : Int) (h1 : -2 ^ 63 ≤ i) (h2 : i < 2 ^ 63) :
    wrapInt64 i = i := by
  unfold wrapInt64
  norm_num at h1 h2 ⊢
  omega

theorem isDigit_toNat_sub_le {c : Char} (h : isDigit c = true) : c.toNat - 48 ≤ 9 := by
  simp only [isDigit, Bool.and_eq_true, decide_eq_true_eq] at h
  omega

theorem le_foldl_digits (ds : List Char) (n : Nat) :
    n ≤ ds.foldl (fun a c => a * 10 + (c.toNat - 48)) n := by
  induction ds generalizing n with
  | nil => simp
  | cons c cs ih =>
    simp only [List.foldl_cons]
    exact le_trans (by omega) (ih _)

theorem parseUintLoop_digits (ds : List Char) (hd : ds.all isDigit = true) (n : Nat)
    (hn : n < 2 ^ 64) :
    parseUintLoop ds n =
      if ds.foldl (fun a c => a * 10 + (c.toNat - 48)) n < 2 ^ 64
      then .ok (ds.foldl (fun a c => a * 10 + (c.toNat - 48)) n)
      else .error .outOfRange := by
  induction ds generalizing n with
  | nil =>
    norm_num at hn
    simp [parseUintLoop, hn]
  | cons c cs ih =>
    simp only [List.all_cons, Bool.and_eq_true] at hd
    have hc := isDigit_toNat_sub_le hd.1
    have hge := le_foldl_digits cs (n * 10 + (c.toNat - 48))
    simp only [parseUintLoop, hd.1, if_true, List.foldl_cons, maxUint64]
    norm_num at hn hge ⊢
    by_cases h1 : 1844674407370955162 ≤ n
    · rw [if_pos h1, if_neg (by omega)]
    · rw [if_neg h1]
      have e10 : n * 10 % 18446744073709551616 = n * 10 := Nat.mod_eq_of_lt (by omega)
      rw [e10]
      by_cases h2 : n * 10 + (c.toNat - 48) < 18446744073709551616
      · have e1 : (n * 10 + (c.toNat - 48)) % 18446744073709551616 =
            n * 10 + (c.toNat - 48) := Nat.mod_eq_of_lt h2
        rw [e1, if_neg (by omega)]
        have := ih hd.2 (n * 10 + (c.toNat - 48)) (by norm_num; exact h2)
        norm_num at this
        exact this
      · have e1 : (n * 10 + (c.toNat - 48)) % 18446744073709551616 =
            n * 10 + (c.toNat - 48) - 18446744073709551616 := by omega
        rw [e1, if_pos (by omega), if_neg (by omega)]

theorem parseUint_digits (ds : List Char) (hd : isDigits ds = true) :
    parseUint ds =
      if digitsValue ds < 2 ^ 64 then .ok (digitsValue ds) else .error .outOfRange := by
  simp only [isDigits, Bool.and_eq_true, Bool.not_eq_true', List.isEmpty_eq_false] at hd
  unfold parseUint digitsValue
  rw [if_neg hd.1]
  exact parseUintLoop_digits ds hd.2 0 (by norm_num)

theorem wrapInt64_neg_wrap (v : Nat) (h : v ≤ 2 ^ 63) :
    wrapInt64 (-(wrapInt64 (v : Int))) = -(v : Int) := by
  unfold wrapInt64
  norm_num at h ⊢
  omega

theorem parseInt_of_decimal (s : List Char) (v : Int) (hv : decimalValue s = some v)
    (h1 : -2 ^ 63 ≤ v) (h2 : v < 2 ^ 63) : parseInt s = .ok v := by
  cases s with
  | nil => simp [decimalValue] at hv
  | cons c cs =>
    simp only [decimalValue] at hv
    unfold parseInt
    norm_num at h1 h2
    by_cases hm : c = '-'
    · simp only [hm, if_true, Option.ite_none_right_eq_some, Option.some.injEq] at hv
      obtain ⟨hd, rfl⟩ := hv
      simp only [hm, or_true, if_true, parseUint_digits cs hd]
      have hle : digitsValue cs ≤ 9223372036854775808 := by omega
      rw [if_pos (by omega)]
      simp only [not_true_eq_false, false_and, if_false, true_and]
      norm_num
      rw [if_neg (by omega), wrapInt64_neg_wrap _ (by norm_num; exact hle)]
    · by_cases hp : c = '+'
      · have hne : ('+' : Char) ≠ '-' := by decide
        simp only [hp, hne, if_true, if_false, Option.ite_none_right_eq_some, Option.some.injEq] at hv
        obtain ⟨hd, rfl⟩ := hv
        simp only [hp, hne, true_or, if_true, parseUint_digits cs hd]
        have hlt : digitsValue cs < 9223372036854775808 := by omega
        rw [if_pos (by omega)]
        simp only [not_false_eq_true, true_and, false_and, if_false]
        norm_num
        rw [if_neg (by omega), wrapInt64_of_range _ (by norm_num; omega) (by norm_num; omega)]
      · simp only [hm, hp, if_false, Option.ite_none_right_eq_some, Option.some.injEq] at hv
        obtain ⟨hd, rfl⟩ := hv
        simp only [hp, hm, or_self, if_false, parseUint_digits (c :: cs) hd]
        have hlt : digitsValue (c :: cs) < 9223372036854775808 := by omega
        rw [if_pos (by omega)]
        simp only [not_false_eq_true, true_and, false_and, if_false]
        norm_num
        rw [if_neg (by omega), wrapInt64_of_range _ (by norm_num; omega) (by norm_num; omega)]

theorem length_le_byteLen (s : List Char) : s.length ≤ byteLen s := by
  induction s with
  | nil => simp [byteLen]
  | cons c cs ih =>
    have := Char.utf8Size_pos c
    simp only [byteLen, List.map_cons, List.sum_cons, List.length_cons] at ih ⊢
    omega

theorem foldl_digits_lt (ds : List Char) (hd : ds.all isDigit = true) (n : Nat) :
    ds.foldl (fun a c => a * 10 + (c.toNat - 48)) n < (n + 1) * 10 ^ ds.length := by
  induction ds generalizing n with
  | nil => simp
  | cons c cs ih =>
    simp only [List.all_cons, Bool.and_eq_true] at hd
    have hc := isDigit_toNat_sub_le hd.1
    simp only [List.foldl_cons, List.length_cons]
    refine lt_of_lt_of_le (ih hd.2 _) ?_
    rw [pow_succ, mul_comm (10 ^ cs.length) 10, ← mul_assoc]
    exact Nat.mul_le_mul_right _ (by omega)

theorem foldl_atoiStep (ds : List Char) (hd : ds.all isDigit = true) (n : Nat)
    (h : ds.foldl (fun a c => a * 10 + (c.toNat - 48)) n < 2 ^ 63) :
    ds.foldl atoiStep (.ok (n : Int)) =
      .ok ((ds.foldl (fun a c => a * 10 + (c.toNat - 48)) n : Nat) : Int) := by
  induction ds generalizing n with
  | nil => simp
  | cons c cs ih =>
    simp only [List.all_cons, Bool.and_eq_true] at hd
    have hge := le_foldl_digits cs (n * 10 + (c.toNat - 48))
    simp only [List.foldl_cons] at h ⊢
    have e : atoiStep (.ok (n : Int)) c = .ok ((n * 10 + (c.toNat - 48) : Nat) : Int) := by
      simp only [atoiStep, hd.1, if_true]
      norm_num at h
      rw [wrapInt64_of_range (n * 10) (by norm_num; omega) (by norm_num; omega),
        wrapInt64_of_range _ (by norm_num; omega) (by norm_num; omega)]
      push_cast
      rfl
    rw [e]
    exact ih hd.2 _ h

theorem digitsValue_lt_of_short (ds : List Char) (hd : ds.all isDigit = true)
    (hl : ds.length ≤ 18) : digitsValue ds < 2 ^ 63 := by
  have h := foldl_digits_lt ds hd 0
  have hp : 10 ^ ds.length ≤ 10 ^ 18 := Nat.pow_le_pow_right (by norm_num) hl
  unfold digitsValue
  norm_num at h hp ⊢
  omega

theorem atoi_fast_digits (ds : List Char) (hd : ds.all isDigit = true) (hl : ds.length ≤ 18) :
    ds.foldl atoiStep (.ok 0) = .ok (digitsValue ds : Int) := by
  have := foldl_atoiStep ds hd 0 (digitsValue_lt_of_short ds hd hl)
  simpa [digitsValue] using this

theorem atoi_of_decimal (s : List Char) (v : Int) (hv : decimalValue s = some v)
    (h1 : -2 ^ 63 ≤ v) (h2 : v < 2 ^ 63) : atoi s = .ok v := by
  unfold atoi
  by_cases hfast : 0 < byteLen s ∧ byteLen s < 19
  · rw [if_pos hfast]
    have hlen := length_le_byteLen s
    cases s with
    | nil => simp [decimalValue] at hv
    | cons c cs =>
      simp only [decimalValue] at hv
      simp only [List.length_cons] at hlen
      by_cases hm : c = '-'
      · simp only [hm, if_true, Option.ite_none_right_eq_some, Option.some.injEq] at hv
        obtain ⟨hd, rfl⟩ := hv
        simp only [isDigits, Bool.and_eq_true, Bool.not_eq_true', List.isEmpty_eq_false] at hd
        have hpos : 0 < cs.length := List.length_pos.mpr hd.1
        have hlt := digitsValue_lt_of_short cs hd.2 (by omega)
        simp only [hm, true_or, if_true, true_and, atoi_fast_digits cs hd.2 (by omega)]
        rw [if_neg (by omega)]
        norm_num at hlt
        simp only [wrapInt64_of_range (-(digitsValue cs : Int)) (by norm_num; omega)
          (by norm_num; omega)]
      · by_cases hp : c = '+'
        · have hne : ('+' : Char) ≠ '-' := by decide
          simp only [hp, hne, if_true, if_false, Option.ite_none_right_eq_some,
            Option.some.injEq] at hv
          obtain ⟨hd, rfl⟩ := hv
          simp only [isDigits, Bool.and_eq_true, Bool.not_eq_true', List.isEmpty_eq_false] at hd
          have hpos : 0 < cs.length := List.length_pos.mpr hd.1
          simp only [hp, hne, or_true, if_true, true_and, if_false,
            atoi_fast_digits cs hd.2 (by omega)]
          rw [if_neg (by omega)]
        · simp only [hm, hp, if_false, Option.ite_none_right_eq_some, Option.some.injEq] at hv
          obtain ⟨hd, rfl⟩ := hv
          simp only [isDigits, Bool.and_eq_true, Bool.not_eq_true', List.isEmpty_eq_false] at hd
          simp only [hm, hp, or_self, if_false, false_and,
            atoi_fast_digits (c :: cs) hd.2 (by simp only [List.length_cons]; omega)]
  · rw [if_neg hfast]
    exact parseInt_of_decimal s v hv h1 h2

theorem parseUintLoop_ok (ds : List Char) (n v : Nat) (hn : n < 2 ^ 64)
    (h : parseUintLoop ds n = .ok v) :
    ds.all isDigit = true ∧ v = ds.foldl (fun a c => a * 10 + (c.toNat - 48)) n ∧ v < 2 ^ 64 := by
  induction ds generalizing n with
  | nil =>
    simp only [parseUintLoop, Except.ok.injEq] at h
    subst h
    exact ⟨rfl, rfl, hn⟩
  | cons c cs ih =>
    simp only [parseUintLoop, maxUint64] at h
    norm_num at hn h
    split_ifs at h with hc h1 h2
    · have hd := isDigit_toNat_sub_le hc
      have e10 : n * 10 % 18446744073709551616 = n * 10 := Nat.mod_eq_of_lt (by omega)
      rw [e10] at h2
      have hlt : n * 10 + (c.toNat - 48) < 18446744073709551616 := by
        by_contra hge
        have : (n * 10 + (c.toNat - 48)) % 18446744073709551616 =
            n * 10 + (c.toNat - 48) - 18446744073709551616 := by omega
        omega
      rw [Nat.mod_eq_of_lt hlt] at h
      obtain ⟨h3, h4, h5⟩ := ih _ (by norm_num; exact hlt) h
      exact ⟨by simp [hc, h3], by simpa using h4, h5⟩

theorem parseUint_ok (s : List Char) (v : Nat) (h : parseUint s = .ok v) :
    isDigits s = true ∧ v = digitsValue s ∧ v < 2 ^ 64 := by
  unfold parseUint at h
  split_ifs at h with he
  obtain ⟨h1, h2, h3⟩ := parseUintLoop_ok s 0 v (by norm_num) h
  exact ⟨by simp [isDigits, he, h1], h2, h3⟩
theorem parseInt_ok (s : List Char) (v : Int) (h : parseInt s = .ok v) :
    decimalValue s = some v ∧ -2 ^ 63 ≤ v ∧ v < 2 ^ 63 := by
  cases s with
  | nil => simp [parseInt] at h
  | cons c cs =>
    unfold parseInt at h
    simp only at h
    by_cases hm : c = '-'
    · simp only [hm, or_true, if_true, not_true_eq_false, false_and, if_false, true_and] at h
      cases hpu : parseUint cs with
      | error k =>
        rw [hpu] at h
        cases k <;> simp [maxUint64] at h
      | ok un =>
        rw [hpu] at h
        obtain ⟨hd, hv, _⟩ := parseUint_ok cs un hpu
        simp only at h
        split_ifs at h with hgt
        simp only [Except.ok.injEq] at h
        norm_num at hgt
        rw [wrapInt64_neg_wrap un (by norm_num; omega)] at h
        subst h
        refine ⟨by simp [decimalValue, hm, hd, hv], ?_, ?_⟩ <;> norm_num <;> omega
    · by_cases hp : c = '+'
      · have hne : ('+' : Char) ≠ '-' := by decide
        simp only [hp, hne, true_or, if_true, not_false_eq_true, true_and, false_and,
          if_false] at h
        cases hpu : parseUint cs with
        | error k =>
          rw [hpu] at h
          cases k <;> simp [maxUint64] at h
        | ok un =>
          rw [hpu] at h
          obtain ⟨hd, hv, _⟩ := parseUint_ok cs un hpu
          simp only at h
          split_ifs at h with hge
          simp only [Except.ok.injEq] at h
          norm_num at hge
          rw [wrapInt64_of_range _ (by norm_num; omega) (by norm_num; omega)] at h
          subst h
          refine ⟨by simp [decimalValue, hp, hd, hv], ?_, ?_⟩ <;> norm_num <;> omega
      · simp only [hm, hp, or_self, if_false, not_false_eq_true, true_and, false_and] at h
        cases hpu : parseUint (c :: cs) with
        | error k =>
          rw [hpu] at h
          cases k <;> simp [maxUint64] at h
        | ok un =>
          rw [hpu] at h
          obtain ⟨hd, hv, _⟩ := parseUint_ok (c :: cs) un hpu
          simp only at h
          split_ifs at h with hge
          simp only [Except.ok.injEq] at h
          norm_num at hge
          rw [wrapInt64_of_range _ (by norm_num; omega) (by norm_num; omega)] at h
          subst h
          refine ⟨by simp [decimalValue, hm, hp, hd, hv], ?_, ?_⟩ <;> norm_num <;> omega
theorem foldl_atoiStep_error (ds : List Char) (e : NumErrKind) :
    ds.foldl atoiStep (.error e) = .error e := by
  induction ds with
  | nil => rfl
  | cons c cs ih => simpa [atoiStep] using ih

theorem foldl_atoiStep_ok (ds : List Char) (n v : Int)
    (h : ds.foldl atoiStep (.ok n) = .ok v) : ds.all isDigit = true := by
  induction ds generalizing n with
  | nil => rfl
  | cons c cs ih =>
    simp only [List.foldl_cons, atoiStep] at h
    split_ifs at h with hc
    · simp [hc, ih _ h]
    · rw [foldl_atoiStep_error] at h
      simp at h

theorem decimal_of_short_digits (c : Char) (cs : List Char) (hl : (c :: cs).length ≤ 18)
    (hd : (if c = '-' ∨ c = '+' then cs else c :: cs).all isDigit = true)
    (hne : ¬ ((c = '-' ∨ c = '+') ∧ (if c = '-' ∨ c = '+' then cs else c :: cs).length < 1)) :
    ∃ v, decimalValue (c :: cs) = some v ∧ -2 ^ 63 ≤ v ∧ v < 2 ^ 63 := by
  simp only [List.length_cons] at hl
  by_cases hm : c = '-'
  · simp only [hm, true_or, if_true, true_and, not_lt] at hd hne
    have hlt := digitsValue_lt_of_short cs hd (by omega)
    have hD : isDigits cs = true := by
      simp only [isDigits, Bool.and_eq_true, Bool.not_eq_true', List.isEmpty_eq_false]
      exact ⟨List.length_pos.mp (by omega), hd⟩
    refine ⟨-(digitsValue cs : Int), by simp [decimalValue, hm, hD], ?_, ?_⟩ <;>
      norm_num at hlt ⊢ <;> omega
  · by_cases hp : c = '+'
    · have hne2 : ('+' : Char) ≠ '-' := by decide
      simp only [hp, or_true, if_true, true_and, not_lt] at hd hne
      have hlt := digitsValue_lt_of_short cs hd (by omega)
      have hD : isDigits cs = true := by
        simp only [isDigits, Bool.and_eq_true, Bool.not_eq_true', List.isEmpty_eq_false]
        exact ⟨List.length_pos.mp (by omega), hd⟩
      refine ⟨(digitsValue cs : Int), by simp [decimalValue, hp, hD], ?_, ?_⟩ <;>
        norm_num at hlt ⊢ <;> omega
    · simp only [hm, hp, or_self, if_false] at hd
      have hlt := digitsValue_lt_of_short (c :: cs) hd (by simp only [List.length_cons]; omega)
      have hD : isDigits (c :: cs) = true := by
        simp only [isDigits, Bool.and_eq_true, Bool.not_eq_true', List.isEmpty_eq_false]
        exact ⟨by simp, hd⟩
      refine ⟨(digitsValue (c :: cs) : Int), by simp [decimalValue, hm, hp, hD], ?_, ?_⟩ <;>
        norm_num at hlt ⊢ <;> omega

theorem atoi_ok (s : List Char) (v : Int) (h : atoi s = .ok v) :
    decimalValue s = some v ∧ -2 ^ 63 ≤ v ∧ v < 2 ^ 63 := by
  by_cases hfast : 0 < byteLen s ∧ byteLen s < 19
  · have hlen := length_le_byteLen s
    have key : ∃ v', decimalValue s = some v' ∧ -2 ^ 63 ≤ v' ∧ v' < 2 ^ 63 := by
      unfold atoi at h
      rw [if_pos hfast] at h
      cases s with
      | nil => simp at h
      | cons c cs =>
        simp only at h
        by_cases hne : (c = '-' ∨ c = '+') ∧
            (if c = '-' ∨ c = '+' then cs else c :: cs).length < 1
        · rw [if_pos hne] at h
          simp at h
        · rw [if_neg hne] at h
          refine decimal_of_short_digits c cs (by omega) ?_ hne
          cases hf : (if c = '-' ∨ c = '+' then cs else c :: cs).foldl atoiStep (.ok 0) with
          | error e => rw [hf] at h; simp at h
          | ok n => exact foldl_atoiStep_ok _ 0 n hf
    obtain ⟨v', h1, h2, h3⟩ := key
    have h4 := atoi_of_decimal s v' h1 h2 h3
    rw [h4, Except.ok.injEq] at h
    subst h
    exact ⟨h1, h2, h3⟩
  · unfold atoi at h
    rw [if_neg hfast] at h
    exact parseInt_ok s v h

theorem parseInt_eq_ok_iff (s : List Char) (v : Int) :
    parseInt s = .ok v ↔ decimalValue s = some v ∧ -2 ^ 63 ≤ v ∧ v < 2 ^ 63 :=
  ⟨parseInt_ok s v, fun h => parseInt_of_decimal s v h.1 h.2.1 h.2.2⟩

theorem atoi_eq_ok_iff (s : List Char) (v : Int) :
    atoi s = .ok v ↔ decimalValue s = some v ∧ -2 ^ 63 ≤ v ∧ v < 2 ^ 63 :=
  ⟨atoi_ok s v, fun h => atoi_of_decimal s v h.1 h.2.1 h.2.2⟩

/-! ## `strings.Split` and the lines of a text -/

theorem split_ne_nil (sep : Char) (s : List Char) : split sep s ≠ [] := by
  cases s with
  | nil => simp [split]
  | cons c cs =>
    unfold split
    split_ifs
    · simp
    · split <;> simp

theorem split_cons (sep c : Char) (cs : List Char) :
    split sep (c :: cs) =
      if c = sep then [] :: split sep cs
      else (c :: (split sep cs).headD []) :: (split sep cs).tail := by
  rw [split]
  split_ifs
  · rfl
  · have := split_ne_nil sep cs
    split
    · contradiction
    · rename_i h; rw [h]; rfl

theorem split_append_sep (sep : Char) (p q : List Char) :
    split sep (p ++ sep :: q) = split sep p ++ split sep q := by
  induction p with
  | nil => simp [split]
  | cons c cs ih =>
    rw [List.cons_append, split_cons, split_cons, ih]
    have := split_ne_nil sep cs
    split_ifs
    · rfl
    · cases h : split sep cs with
      | nil => contradiction
      | cons l ls => simp

theorem split_of_not_mem (sep : Char) (s : List Char) (h : sep ∉ s) : split sep s = [s] := by
  induction s with
  | nil => rfl
  | cons c cs ih =>
    simp only [List.mem_cons, not_or] at h
    rw [split_cons, if_neg (fun e => h.1 e.symm), ih h.2]
    rfl

theorem not_mem_of_mem_split (sep : Char) (s l : List Char) (h : l ∈ split sep s) :
    sep ∉ l := by
  induction s generalizing l with
  | nil =>
    simp only [split, List.mem_singleton] at h
    simp [h]
  | cons c cs ih =>
    rw [split_cons] at h
    have hne := split_ne_nil sep cs
    split_ifs at h with hc
    · rcases List.mem_cons.mp h with rfl | h
      · simp
      · exact ih l h
    · cases hs : split sep cs with
      | nil => contradiction
      | cons l0 ls =>
        rw [hs] at h ih
        simp only [List.headD_cons, List.tail_cons, List.mem_cons] at h
        rcases h with rfl | h
        · have := ih l0 (List.mem_cons_self _ _)
          simp only [List.mem_cons, not_or]
          exact ⟨fun e => hc e.symm, this⟩
        · exact ih l (List.mem_cons_of_mem _ h)

theorem length_split (sep : Char) (s : List Char) :
    (split sep s).length = s.count sep + 1 := by
  induction s with
  | nil => rfl
  | cons c cs ih =>
    rw [split_cons]
    have hne := split_ne_nil sep cs
    split_ifs with hc
    · subst hc; simp [ih]
    · rw [List.count_cons_of_ne (fun e => hc e.symm)]
      cases hs : split sep cs with
      | nil => contradiction
      | cons l0 ls => rw [hs] at ih; simpa using ih

theorem joinLines_cons (l : List Char) (ls : List (List Char)) (h : ls ≠ []) :
    joinLines (l :: ls) = l ++ '\n' :: joinLines ls := by
  cases ls with
  | nil => contradiction
  | cons a as => rfl

theorem joinLines_split (s : List Char) : joinLines (split '\n' s) = s := by
  induction s with
  | nil => rfl
  | cons c cs ih =>
    rw [split_cons]
    have hne := split_ne_nil '\n' cs
    split_ifs with hc
    · rw [joinLines_cons _ _ hne, ih, hc]; rfl
    · cases hs : split '\n' cs with
      | nil => contradiction
      | cons l0 ls =>
        rw [hs] at ih
        simp only [List.headD_cons, List.tail_cons]
        cases ls with
        | nil => simpa [joinLines] using ih
        | cons a as =>
          rw [joinLines_cons _ _ (by simp)] at ih ⊢
          rw [List.cons_append, ih]

theorem split_joinLines (ls : List (List Char)) (hne : ls ≠ [])
    (h : ∀ l ∈ ls, '\n' ∉ l) : split '\n' (joinLines ls) = ls := by
  induction ls with
  | nil => contradiction
  | cons l rest ih =>
    cases rest with
    | nil => exact split_of_not_mem _ _ (h l (List.mem_cons_self _ _))
    | cons a as =>
      rw [joinLines_cons _ _ (by simp), split_append_sep,
        split_of_not_mem _ _ (h l (List.mem_cons_self _ _)),
        ih (by simp) (fun x hx => h x (List.mem_cons_of_mem _ hx))]
      rfl

/-! ## The records of the lines -/

theorem parseLine_eq (repoDir : String) (commits : List RepoData) (line : List Char) :
    parseLine repoDir commits line = commits ++ (lineRecord repoDir line).toList := by
  unfold lineRecord parseLine
  simp only
  split_ifs
  · simp
  · split <;> simp

theorem foldl_parseLine (repoDir : String) (ls : List (List Char)) (acc : List RepoData) :
    ls.foldl (parseLine repoDir) acc = acc ++ ls.filterMap (lineRecord repoDir) := by
  induction ls generalizing acc with
  | nil => simp
  | cons l rest ih =>
    rw [List.foldl_cons, ih, parseLine_eq, List.filterMap_cons]
    cases lineRecord repoDir l <;> simp

theorem parseOutput_eq (repoDir output : String) :
    parseOutput repoDir output =
      (split '\n' (trimSpace output.data)).filterMap (lineRecord repoDir) := by
  unfold parseOutput
  rw [foldl_parseLine, List.nil_append]

theorem lineRecord_nil (repoDir : String) : lineRecord repoDir [] = none := by
  rfl

theorem lineRecord_of_malformed (repoDir : String) (l : List Char) (h : isMalformed l = true) :
    lineRecord repoDir l = none := by
  unfold isMalformed at h
  unfold lineRecord parseLine
  simp only [Bool.or_eq_true, bne_iff_ne, ne_eq] at h
  simp only
  split_ifs with h2
  · rfl
  · rcases h with h | h
    · exact absurd h h2
    · split
      · rfl
      · rename_i e; rw [e] at h; simp at h

theorem lineRecord_of_fields (repoDir : String) (hash ts : List Char) (n : Int)
    (hh : ',' ∉ hash) (ht : ',' ∉ ts) (hp : parseInt ts = .ok n) :
    lineRecord repoDir (hash ++ ',' :: ts) =
      some { Name := repoDir, Commit := String.mk hash, Date := timeUnix n 0 } := by
  unfold lineRecord parseLine
  simp [split_append_sep, split_of_not_mem _ _ hh, split_of_not_mem _ _ ht, hp]

theorem isMalformed_iff (l : List Char) :
    isMalformed l = true ↔
      (split ',' l).length ≠ 2 ∨
        ¬ ∃ n, decimalValue ((split ',' l).getD 1 []) = some n ∧ -2 ^ 63 ≤ n ∧ n < 2 ^ 63 := by
  unfold isMalformed
  simp only [Bool.or_eq_true, bne_iff_ne, ne_eq]
  refine or_congr Iff.rfl ?_
  cases h : parseInt ((split ',' l).getD 1 []) with
  | error k =>
    simp only [true_iff]
    rintro ⟨n, hn⟩
    rw [(parseInt_eq_ok_iff _ n).mpr hn] at h
    simp at h
  | ok v =>
    simp only [Bool.false_eq_true, false_iff, not_not]
    exact ⟨v, parseInt_ok _ v h⟩

theorem isDigit_ne_comma {c : Char} (h : isDigit c = true) : c ≠ ',' := by
  rintro rfl
  exact absurd h (by decide)

theorem comma_not_mem_digits (ds : List Char) (hd : ds.all isDigit = true) : ',' ∉ ds := by
  intro hmem
  exact isDigit_ne_comma (List.all_eq_true.mp hd _ hmem) rfl

theorem comma_not_mem_of_decimal (s : List Char) (v : Int) (hv : decimalValue s = some v) :
    ',' ∉ s := by
  cases s with
  | nil => simp
  | cons c cs =>
    simp only [decimalValue] at hv
    by_cases hm : c = '-'
    · simp only [hm, if_true, Option.ite_none_right_eq_some, isDigits, Bool.and_eq_true] at hv
      have := comma_not_mem_digits cs hv.1.2
      subst hm
      simp only [List.mem_cons, not_or]
      exact ⟨by decide, this⟩
    · by_cases hp : c = '+'
      · have hne : ('+' : Char) ≠ '-' := by decide
        simp only [hp, hne, if_true, if_false, Option.ite_none_right_eq_some, isDigits,
          Bool.and_eq_true] at hv
        have := comma_not_mem_digits cs hv.1.2
        subst hp
        simp only [List.mem_cons, not_or]
        exact ⟨by decide, this⟩
      · simp only [hm, hp, if_false, Option.ite_none_right_eq_some, isDigits,
          Bool.and_eq_true] at hv
        exact comma_not_mem_digits _ hv.1.2

/-! ## `strings.TrimSpace` and the lines of a text -/

theorem trimSpace_eq (s : List Char) :
    trimSpace s = (s.dropWhile isSpace).rdropWhile isSpace := rfl

theorem joinLines_mid (a : List (List Char)) (l : List Char) (b : List (List Char)) :
    ∃ p q, joinLines (a ++ l :: b) = p ++ l ++ q ∧
      (p = [] ∨ p.getLast? = some '\n') ∧ (q = [] ∨ q.head? = some '\n') := by
  induction a with
  | nil =>
    cases b with
    | nil => exact ⟨[], [], by simp [joinLines], Or.inl rfl, Or.inl rfl⟩
    | cons x xs =>
      exact ⟨[], '\n' :: joinLines (x :: xs), by simp [joinLines], Or.inl rfl, Or.inr rfl⟩
  | cons x xs ih =>
    obtain ⟨p, q, e, hp, hq⟩ := ih
    refine ⟨x ++ '\n' :: p, q, ?_, Or.inr ?_, hq⟩
    · rw [List.cons_append, joinLines_cons _ _ (by simp), e]
      simp
    · rcases hp with rfl | hp
      · simp
      · obtain ⟨p0, rfl⟩ := List.getLast?_eq_some_iff.mp hp
        exact List.getLast?_eq_some_iff.mpr ⟨x ++ '\n' :: p0, by simp⟩

theorem dropWhile_keep (p r : List Char) (c sep : Char) (hr : r.head? = some c)
    (hc : isSpace c = false) (hp : p = [] ∨ p.getLast? = some sep) :
    ∃ p', (p ++ r).dropWhile isSpace = p' ++ r ∧ (p' = [] ∨ p'.getLast? = some sep) := by
  have hrr : r.dropWhile isSpace = r := by
    cases r with
    | nil => rfl
    | cons x xs =>
      simp only [List.head?_cons, Option.some.injEq] at hr
      subst hr
      simp [List.dropWhile_cons, hc]
  rw [List.dropWhile_append]
  split_ifs with he
  · exact ⟨[], by simp [hrr], Or.inl rfl⟩
  · refine ⟨p.dropWhile isSpace, rfl, Or.inr ?_⟩
    have hne : p.dropWhile isSpace ≠ [] := by
      simpa [List.isEmpty_iff] using he
    rcases hp with rfl | hp
    · simp at hne
    · have e := List.takeWhile_append_dropWhile isSpace p
      rw [← e, List.getLast?_append] at hp
      obtain ⟨y, hy⟩ := Option.isSome_iff_exists.mp
        (by simpa using hne : (p.dropWhile isSpace).getLast?.isSome)
      rw [hy] at hp ⊢
      simpa using hp

theorem rdropWhile_keep (r q : List Char) (c sep : Char) (hr : r.getLast? = some c)
    (hc : isSpace c = false) (hq : q = [] ∨ q.head? = some sep) :
    ∃ q', (r ++ q).rdropWhile isSpace = r ++ q' ∧ (q' = [] ∨ q'.head? = some sep) := by
  obtain ⟨p', e, hp'⟩ := dropWhile_keep q.reverse r.reverse c sep (by simpa using hr) hc
    (by rcases hq with rfl | hq
        · exact Or.inl rfl
        · exact Or.inr (by simpa using hq))
  refine ⟨p'.reverse, ?_, ?_⟩
  · rw [List.rdropWhile, List.reverse_append, e]
    simp
  · rcases hp' with rfl | hp'
    · exact Or.inl rfl
    · exact Or.inr (by simpa using hp')

theorem mem_split_mid (sep : Char) (p l q : List Char) (hl : sep ∉ l)
    (hp : p = [] ∨ p.getLast? = some sep) (hq : q = [] ∨ q.head? = some sep) :
    l ∈ split sep (p ++ l ++ q) := by
  have hlq : l ∈ split sep (l ++ q) := by
    rcases hq with rfl | hq
    · simp [split_of_not_mem _ _ hl]
    · cases q with
      | nil => simp at hq
      | cons x xs =>
        simp only [List.head?_cons, Option.some.injEq] at hq
        subst hq
        rw [split_append_sep, split_of_not_mem _ _ hl]
        simp
  rcases hp with rfl | hp
  · simpa using hlq
  · obtain ⟨p0, rfl⟩ := List.getLast?_eq_some_iff.mp hp
    have e : p0 ++ [sep] ++ l ++ q = p0 ++ sep :: (l ++ q) := by simp
    rw [e, split_append_sep]
    exact List.mem_append_right _ hlq

theorem mem_split_trimSpace (s l : List Char) (a b : Char) (hl : l ∈ split '\n' s)
    (ha : l.head? = some a) (hsa : isSpace a = false)
    (hb : l.getLast? = some b) (hsb : isSpace b = false) :
    l ∈ split '\n' (trimSpace s) := by
  have hnl := not_mem_of_mem_split _ _ _ hl
  obtain ⟨x, y, hxy⟩ := List.append_of_mem hl
  have hs := joinLines_split s
  rw [hxy] at hs
  obtain ⟨p, q, e, hp, hq⟩ := joinLines_mid x l y
  rw [hs] at e
  have hlq : (l ++ q).head? = some a := by
    cases l with
    | nil => simp at ha
    | cons c cs => simpa using ha
  obtain ⟨p', e1, hp'⟩ := dropWhile_keep p (l ++ q) a '\n' hlq hsa hp
  have hpl : (p' ++ l).getLast? = some b := by
    rw [List.getLast?_append, hb]; rfl
  obtain ⟨q', e2, hq'⟩ := rdropWhile_keep (p' ++ l) q b '\n' hpl hsb hq
  have : trimSpace s = p' ++ l ++ q' := by
    rw [trimSpace_eq, e, List.append_assoc, e1, ← List.append_assoc, e2]
  rw [this]
  exact mem_split_mid _ _ _ _ hnl hp' hq'

/-! ## Well-formed lines -/

theorem isSpace_of_isDigit {c : Char} (h : isDigit c = true) : isSpace c = false := by
  simp only [isDigit, Bool.and_eq_true, decide_eq_true_eq] at h
  unfold isSpace
  simp only
  rw [if_pos (by omega)]
  simp only [Bool.or_eq_false_iff, beq_eq_false_iff_ne, ne_eq]
  omega

theorem head_not_space_of_trimmed (c : Char) (cs : List Char)
    (h : isTrimmed (c :: cs) = true) : isSpace c = false := by
  by_contra hc
  simp only [Bool.not_eq_false] at hc
  simp only [isTrimmed, beq_iff_eq] at h
  have h1 : (trimSpace (c :: cs)).length ≤ ((c :: cs).dropWhile isSpace).length := by
    rw [trimSpace_eq]
    exact (List.rdropWhile_prefix isSpace _).length_le
  rw [h, List.dropWhile_cons_of_pos hc] at h1
  have h2 := (List.dropWhile_suffix (l := cs) isSpace).length_le
  simp only [List.length_cons] at h1
  omega

theorem getLast?_digits (ds : List Char) (hd : isDigits ds = true) :
    ∃ b, ds.getLast? = some b ∧ isSpace b = false := by
  simp only [isDigits, Bool.and_eq_true, Bool.not_eq_true', List.isEmpty_eq_false] at hd
  obtain ⟨b, hb⟩ := Option.isSome_iff_exists.mp
    (by simpa using hd.1 : ds.getLast?.isSome)
  exact ⟨b, hb, isSpace_of_isDigit (List.all_eq_true.mp hd.2 b (List.mem_of_getLast?_eq_some hb))⟩

theorem getLast?_of_decimal (s : List Char) (v : Int) (hv : decimalValue s = some v) :
    ∃ b, s.getLast? = some b ∧ isSpace b = false := by
  cases s with
  | nil => simp [decimalValue] at hv
  | cons c cs =>
    simp only [decimalValue] at hv
    have key : isDigits cs = true → ∃ b, (c :: cs).getLast? = some b ∧ isSpace b = false := by
      intro hd
      obtain ⟨b, hb, hsb⟩ := getLast?_digits cs hd
      obtain ⟨p0, rfl⟩ := List.getLast?_eq_some_iff.mp hb
      exact ⟨b, List.getLast?_eq_some_iff.mpr ⟨c :: p0, by simp⟩, hsb⟩
    by_cases hm : c = '-'
    · simp only [hm, if_true, Option.ite_none_right_eq_some] at hv
      exact hm ▸ key hv.1
    · by_cases hp : c = '+'
      · have hne : ('+' : Char) ≠ '-' := by decide
        simp only [hp, hne, if_true, if_false, Option.ite_none_right_eq_some] at hv
        exact hp ▸ key hv.1
      · simp only [hm, hp, if_false, Option.ite_none_right_eq_some] at hv
        exact getLast?_digits _ hv.1

theorem unixSec_timeUnix (n : Int) (h1 : -2 ^ 63 ≤ n) (h2 : n < 2 ^ 63) :
    (timeUnix n 0).unixSec = n ∧ (timeUnix n 0).nanosecond = 0 := by
  unfold Time.unixSec Time.nanosecond timeUnix wrapInt64 unixToInternal
  norm_num at h1 h2 ⊢
  omega

/-- C1: a well-formed line `hash,timestamp` of the git output (a non-empty hash
without comma and without surrounding white space, then a decimal numeral of
an `int64`) gives a record of the result of `getCommitsFromDate` whose `Commit`
is the hash, character for character, and whose `Date` is `time.Unix(timestamp, 0)`,
the instant `timestamp` seconds after the Unix epoch. -/
theorem getCommitsFromDate_wellformed_line {σ : Type} (w : World σ) (repoDir : String)
    (date : Time) (s s1 : σ) (output : String) (hash ts : List Char) (n : Int)
    (hrun : w.output s "git" (gitArgs (w.format date "2006-01-02")) repoDir = (.ok output, s1))
    (hline : hash ++ ',' :: ts ∈ split '\n' output.data)
    (hne : hash ≠ []) (hcomma : ',' ∉ hash) (htrim : isTrimmed hash = true)
    (hts : decimalValue ts = some n) (hlo : -2 ^ 63 ≤ n) (hhi : n < 2 ^ 63) :
    getCommitsFromDate w repoDir date s = (.ok (parseOutput repoDir output), s1) ∧
      ({ Name := repoDir, Commit := String.mk hash, Date := timeUnix n 0 } : RepoData) ∈
        parseOutput repoDir output ∧
      (String.mk hash).data = hash ∧
      (timeUnix n 0).unixSec = n ∧ (timeUnix n 0).nanosecond = 0 := by
  refine ⟨by simp [getCommitsFromDate, hrun], ?_, rfl, unixSec_timeUnix n hlo hhi⟩
  rw [parseOutput_eq, List.mem_filterMap]
  refine ⟨hash ++ ',' :: ts, ?_, lineRecord_of_fields repoDir hash ts n hcomma
    (comma_not_mem_of_decimal ts n hts) (parseInt_of_decimal ts n hts hlo hhi)⟩
  obtain ⟨b, hb, hsb⟩ := getLast?_of_decimal ts n hts
  cases hash with
  | nil => contradiction
  | cons c cs =>
    refine mem_split_trimSpace _ _ c b hline (by simp) (head_not_space_of_trimmed c cs htrim)
      ?_ hsb
    obtain ⟨p0, rfl⟩ := List.getLast?_eq_some_iff.mp hb
    exact List.getLast?_eq_some_iff.mpr ⟨c :: cs ++ ',' :: p0, by simp⟩

theorem getCommitsFromDate_wellformed_line_witness :
    getCommitsFromDate (gitWorld "abc123,1700000000\n") "repo" ⟨0, 0⟩ () =
        (.ok (parseOutput "repo" "abc123,1700000000\n"), ()) ∧
      ({ Name := "repo", Commit := String.mk "abc123".data, Date := timeUnix 1700000000 0 } :
          RepoData) ∈ parseOutput "repo" "abc123,1700000000\n" ∧
      (String.mk "abc123".data).data = "abc123".data ∧
      (timeUnix 1700000000 0).unixSec = 1700000000 ∧
      (timeUnix 1700000000 0).nanosecond = 0 :=
  getCommitsFromDate_wellformed_line (gitWorld "abc123,1700000000\n") "repo" ⟨0, 0⟩ () ()
    "abc123,1700000000\n" "abc123".data "1700000000".data 1700000000 rfl (by decide)
    (by decide) (by decide) (by decide) (by decide) (by decide) (by decide)

/-! ## Blank outputs and the number of records -/

theorem maxCountArg_gitArgs (since : String) : maxCountArg (gitArgs since) = some 100 := by
  rfl

theorem trimSpace_of_all_space (s : List Char) (h : s.all isSpace = true) :
    trimSpace s = [] := by
  have : s.dropWhile isSpace = [] := by
    rw [List.dropWhile_eq_nil_iff]
    exact fun x hx => List.all_eq_true.mp h x hx
  rw [trimSpace_eq, this]
  rfl

theorem lineRecord_name (repoDir : String) (l : List Char) (r : RepoData)
    (h : lineRecord repoDir l = some r) : r.Name = repoDir := by
  unfold lineRecord parseLine at h
  simp only at h
  split_ifs at h
  · simp at h
  · split at h
    · simp at h
    · simp only [List.nil_append, List.head?_cons, Option.some.injEq] at h
      rw [← h]

theorem length_parseOutput_le (repoDir output : String) :
    (parseOutput repoDir output).length ≤ (split '\n' (trimSpace output.data)).length := by
  rw [parseOutput_eq]
  exact List.length_filterMap_le _ _

theorem parseOutput_of_trim_nil (repoDir output : String) (h : trimSpace output.data = []) :
    parseOutput repoDir output = [] := by
  rw [parseOutput_eq, h]
  rfl

theorem length_parseOutput_le_count (repoDir output : String)
    (h : output.data = [] ∨ output.data.getLast? = some '\n') :
    (parseOutput repoDir output).length ≤ output.data.count '\n' := by
  rcases h with h | h
  · rw [parseOutput_of_trim_nil repoDir output (by rw [h]; rfl)]
    exact Nat.zero_le _
  · by_cases hd : output.data.dropWhile isSpace = []
    · rw [parseOutput_of_trim_nil repoDir output (by rw [trimSpace_eq, hd]; rfl)]
      exact Nat.zero_le _
    · have hsuf := List.dropWhile_suffix (l := output.data) isSpace
      obtain ⟨t, ht⟩ := hsuf
      have hlast : (output.data.dropWhile isSpace).getLast? = some '\n' := by
        obtain ⟨y, hy⟩ := Option.isSome_iff_exists.mp
          (by simpa using hd : (output.data.dropWhile isSpace).getLast?.isSome)
        rw [← ht, List.getLast?_append, hy] at h
        rw [hy]
        simpa using h
      obtain ⟨d, hdd⟩ := List.getLast?_eq_some_iff.mp hlast
      have htrim : trimSpace output.data = d.rdropWhile isSpace := by
        rw [trimSpace_eq, hdd, List.rdropWhile_concat_pos _ _ _ (by decide)]
      have h1 := length_parseOutput_le repoDir output
      rw [length_split, htrim] at h1
      have h2 : (d.rdropWhile isSpace).count '\n' ≤ d.count '\n' :=
        (List.rdropWhile_prefix isSpace d).sublist.count_le _
      have h3 : output.data.count '\n' = t.count '\n' + (d.count '\n' + 1) := by
        rw [← ht, hdd]
        simp [List.count_append]
      omega

theorem count_unlines (ls : List (List Char)) (h : ∀ l ∈ ls, '\n' ∉ l) :
    (unlines ls).count '\n' = ls.length := by
  induction ls with
  | nil => rfl
  | cons l rest ih =>
    have h0 : l.count '\n' = 0 := List.count_eq_zero.mpr (h l (List.mem_cons_self _ _))
    simp only [unlines, List.count_append, List.count_cons_self, List.length_cons, h0,
      ih (fun x hx => h x (List.mem_cons_of_mem _ hx))]
    omega

theorem getLast?_unlines (ls : List (List Char)) :
    unlines ls = [] ∨ (unlines ls).getLast? = some '\n' := by
  induction ls with
  | nil => exact Or.inl rfl
  | cons l rest ih =>
    refine Or.inr ?_
    rcases ih with h | h
    · simp [unlines, h]
    · obtain ⟨d, hd⟩ := List.getLast?_eq_some_iff.mp h
      exact List.getLast?_eq_some_iff.mpr ⟨l ++ '\n' :: d, by simp [unlines, hd]⟩

theorem honours_historyWorld (history : List (List Char)) (h : ∀ l ∈ history, '\n' ∉ l) :
    HonoursMaxCount (historyWorld history) := by
  intro s args dir out s1 k hrun hk
  simp only [historyWorld, Prod.mk.injEq, Except.ok.injEq] at hrun
  rw [← hrun.1]
  simp only [gitLogOutput, hk]
  refine ⟨getLast?_unlines _, ?_⟩
  rw [count_unlines _ (fun l hl => h l (List.mem_of_mem_take hl))]
  exact List.length_take_le _ _

theorem longHistory_lines : ∀ l ∈ longHistory, '\n' ∉ l := by
  intro l hl
  rw [List.eq_of_mem_replicate hl]
  decide

/-- C3: on a `git` that honours the option `-n 100` which `getCommitsFromDate`
passes (at most 100 lines, each ended by a newline), the list returned has at
most 100 records, however many commits the history holds. -/
theorem getCommitsFromDate_length_le_100 {σ : Type} (w : World σ) (hgit : HonoursMaxCount w)
    (repoDir : String) (date : Time) (s : σ) (commits : List RepoData)
    (h : (getCommitsFromDate w repoDir date s).1 = .ok commits) : commits.length ≤ 100 := by
  unfold getCommitsFromDate at h
  rcases hrun : w.output s "git" (gitArgs (w.format date "2006-01-02")) repoDir with ⟨r, s1⟩
  rw [hrun] at h
  cases r with
  | error e => simp at h
  | ok out =>
    simp only [Except.ok.injEq] at h
    obtain ⟨hlast, hcount⟩ := hgit s _ repoDir out s1 100 hrun (maxCountArg_gitArgs _)
    rw [← h]
    exact le_trans (length_parseOutput_le_count repoDir out hlast) hcount

theorem getCommitsFromDate_length_le_100_witness :
    longHistory.length = 150 ∧
      (parseOutput "repo" (gitLogOutput longHistory (gitArgs "2023-11-14"))).length ≤ 100 :=
  ⟨rfl, getCommitsFromDate_length_le_100 (historyWorld longHistory)
    (honours_historyWorld longHistory longHistory_lines) "repo" ⟨0, 0⟩ () _ rfl⟩

/-- C10: when the git command succeeds, `getCommitsFromDate` returns a nil
error; an output that is empty or made of white space only gives the empty
list; the records are never more than the newline-separated lines of the
trimmed output; every record has `Name` equal to the `repoDir` argument. -/
theorem getCommitsFromDate_blank_and_bounds {σ : Type} (w : World σ) (repoDir : String)
    (date : Time) (s s1 : σ) (output : String)
    (hrun : w.output s "git" (gitArgs (w.format date "2006-01-02")) repoDir = (.ok output, s1)) :
    getCommitsFromDate w repoDir date s = (.ok (parseOutput repoDir output), s1) ∧
      (output.data.all isSpace = true → parseOutput repoDir output = []) ∧
      (parseOutput repoDir output).length ≤ (split '\n' (trimSpace output.data)).length ∧
      ∀ r ∈ parseOutput repoDir output, r.Name = repoDir := by
  refine ⟨by simp [getCommitsFromDate, hrun], ?_, length_parseOutput_le repoDir output, ?_⟩
  · intro hall
    exact parseOutput_of_trim_nil repoDir output (trimSpace_of_all_space _ hall)
  · intro r hr
    rw [parseOutput_eq, List.mem_filterMap] at hr
    obtain ⟨l, _, hl⟩ := hr
    exact lineRecord_name repoDir l r hl

theorem getCommitsFromDate_blank_and_bounds_witness :
    getCommitsFromDate (gitWorld " \n\t\n") "repo" ⟨0, 0⟩ () = (.ok [], ()) :=
  have h := getCommitsFromDate_blank_and_bounds (gitWorld " \n\t\n") "repo" ⟨0, 0⟩ () ()
    " \n\t\n" rfl
  (h.2.1 (by decide)) ▸ h.1

/-! ## Trimming the output, line by line -/

theorem isBlank_iff_dropWhile (l : List Char) :
    isBlank l = true ↔ l.dropWhile isSpace = [] := by
  rw [List.dropWhile_eq_nil_iff, isBlank, List.all_eq_true]

theorem isBlank_iff_rdropWhile (l : List Char) :
    isBlank l = true ↔ l.rdropWhile isSpace = [] := by
  rw [List.rdropWhile_eq_nil_iff, isBlank, List.all_eq_true]

theorem rdropWhile_append_eq (p : Char → Bool) (a b : List Char) :
    (a ++ b).rdropWhile p =
      if b.rdropWhile p = [] then a.rdropWhile p else a ++ b.rdropWhile p := by
  simp only [List.rdropWhile, List.reverse_append, List.dropWhile_append, List.isEmpty_iff,
    List.reverse_eq_nil_iff]
  split_ifs <;> simp

theorem trimLinesLeft_cons_blank (l : List Char) (ls : List (List Char))
    (h : isBlank l = true) : trimLinesLeft (l :: ls) = trimLinesLeft ls := by
  simp [trimLinesLeft, h]

theorem trimLinesLeft_cons_nonblank (l : List Char) (ls : List (List Char))
    (h : isBlank l = false) : trimLinesLeft (l :: ls) = l.dropWhile isSpace :: ls := by
  simp [trimLinesLeft, h]

theorem dropWhile_joinLines_eq (ls : List (List Char)) :
    (joinLines ls).dropWhile isSpace = joinLines (trimLinesLeft ls) := by
  induction ls with
  | nil => rfl
  | cons l rest ih =>
    by_cases hb : isBlank l = true
    · have hd := (isBlank_iff_dropWhile l).mp hb
      rw [trimLinesLeft_cons_blank l rest hb]
      cases rest with
      | nil => simpa [joinLines, trimLinesLeft] using hd
      | cons a as =>
        rw [joinLines_cons l (a :: as) (by simp), List.dropWhile_append, hd]
        simp only [List.isEmpty_nil, if_true]
        rw [List.dropWhile_cons_of_pos (by decide), ih]
    · have hd : l.dropWhile isSpace ≠ [] := fun h => hb ((isBlank_iff_dropWhile l).mpr h)
      rw [trimLinesLeft_cons_nonblank l rest (by simpa using hb)]
      cases rest with
      | nil => simp [joinLines]
      | cons a as =>
        rw [joinLines_cons l (a :: as) (by simp),
          joinLines_cons (l.dropWhile isSpace) (a :: as) (by simp), List.dropWhile_append,
          if_neg (by simpa [List.isEmpty_iff] using hd)]

theorem trimLinesRight_cons (l : List Char) (ls : List (List Char)) :
    trimLinesRight (l :: ls) =
      if trimLinesRight ls = [] then (if isBlank l then [] else [l.rdropWhile isSpace])
      else l :: trimLinesRight ls := by
  rw [trimLinesRight]
  cases trimLinesRight ls <;> simp

theorem rdropWhile_joinLines_eq (ls : List (List Char)) :
    (joinLines ls).rdropWhile isSpace = joinLines (trimLinesRight ls) := by
  induction ls with
  | nil => rfl
  | cons l rest ih =>
    rw [trimLinesRight_cons]
    cases rest with
    | nil =>
      simp only [trimLinesRight, if_true, joinLines]
      by_cases hb : isBlank l = true
      · simpa [hb, joinLines] using (isBlank_iff_rdropWhile l).mp hb
      · simp [hb, joinLines]
    | cons a as =>
      rw [joinLines_cons l (a :: as) (by simp), rdropWhile_append_eq,
        show ('\n' :: joinLines (a :: as)) = ['\n'] ++ joinLines (a :: as) from rfl,
        rdropWhile_append_eq, ih]
      by_cases hr : trimLinesRight (a :: as) = []
      · rw [hr]
        simp only [joinLines, if_true]
        have h1 : List.rdropWhile isSpace ['\n'] = [] := by decide
        rw [h1]
        simp only [if_true]
        by_cases hb : isBlank l = true
        · simpa [hb, joinLines] using (isBlank_iff_rdropWhile l).mp hb
        · simp [hb, joinLines]
      · have hj : joinLines (trimLinesRight (a :: as)) ≠ [] := by
          rw [trimLinesRight_cons] at hr ⊢
          split_ifs at hr ⊢ with h1 h2
          · exact absurd rfl hr
          · simpa [joinLines] using fun h => h2 ((isBlank_iff_rdropWhile a).mpr h)
          · rw [joinLines_cons a _ h1]
            simp
        rw [if_neg hj, if_neg (by simp), if_neg hr, joinLines_cons l _ hr]
        rfl

theorem trimSpace_joinLines (ls : List (List Char)) :
    trimSpace (joinLines ls) = joinLines (trimLinesRight (trimLinesLeft ls)) := by
  rw [trimSpace_eq, dropWhile_joinLines_eq, rdropWhile_joinLines_eq]
theorem not_mem_trimLinesLeft (c : Char) (ls : List (List Char)) (h : ∀ l ∈ ls, c ∉ l) :
    ∀ x ∈ trimLinesLeft ls, c ∉ x := by
  induction ls with
  | nil => simp [trimLinesLeft]
  | cons l rest ih =>
    have hrest := fun x hx => h x (List.mem_cons_of_mem _ hx)
    by_cases hb : isBlank l = true
    · rw [trimLinesLeft_cons_blank l rest hb]
      exact ih hrest
    · rw [trimLinesLeft_cons_nonblank l rest (by simpa using hb)]
      intro x hx
      rcases List.mem_cons.mp hx with rfl | hx
      · exact fun hc => h l (List.mem_cons_self _ _) ((List.dropWhile_suffix _).subset hc)
      · exact hrest x hx

theorem not_mem_trimLinesRight (c : Char) (ls : List (List Char)) (h : ∀ l ∈ ls, c ∉ l) :
    ∀ x ∈ trimLinesRight ls, c ∉ x := by
  induction ls with
  | nil => simp [trimLinesRight]
  | cons l rest ih =>
    have hrest := fun x hx => h x (List.mem_cons_of_mem _ hx)
    have hl := h l (List.mem_cons_self _ _)
    rw [trimLinesRight_cons]
    intro x hx
    split_ifs at hx with h1 h2
    · simp at hx
    · rw [List.mem_singleton] at hx
      subst hx
      exact fun hc => hl ((List.rdropWhile_prefix isSpace l).subset hc)
    · rcases List.mem_cons.mp hx with rfl | hx
      · exact hl
      · exact ih hrest x hx

theorem parseOutput_lines (repoDir : String) (ls : List (List Char))
    (h : ∀ l ∈ ls, '\n' ∉ l) :
    parseOutput repoDir (String.mk (joinLines ls)) =
      (trimLinesRight (trimLinesLeft ls)).filterMap (lineRecord repoDir) := by
  rw [parseOutput_eq]
  show List.filterMap (lineRecord repoDir) (split '\n' (trimSpace (joinLines ls))) = _
  rw [trimSpace_joinLines]
  by_cases hnil : trimLinesRight (trimLinesLeft ls) = []
  · rw [hnil]
    rfl
  · rw [split_joinLines _ hnil
      (not_mem_trimLinesRight _ _ (not_mem_trimLinesLeft _ _ h))]

theorem lineRecord_of_blank (repoDir : String) (l : List Char) (h : isBlank l = true) :
    lineRecord repoDir l = none := by
  have hc : ',' ∉ l := by
    intro hm
    have := List.all_eq_true.mp h _ hm
    exact absurd this (by decide)
  unfold lineRecord parseLine
  simp [split_of_not_mem _ _ hc]

theorem filterMap_of_blank (repoDir : String) (ls : List (List Char))
    (h : ∀ l ∈ ls, isBlank l = true) : ls.filterMap (lineRecord repoDir) = [] := by
  rw [List.filterMap_eq_nil_iff]
  exact fun l hl => lineRecord_of_blank repoDir l (h l hl)

theorem trimLinesLeft_of_blank (ls : List (List Char)) (h : ∀ l ∈ ls, isBlank l = true) :
    trimLinesLeft ls = [] := by
  induction ls with
  | nil => rfl
  | cons l rest ih =>
    rw [trimLinesLeft_cons_blank l rest (h l (List.mem_cons_self _ _))]
    exact ih (fun x hx => h x (List.mem_cons_of_mem _ hx))

theorem trimLinesLeft_append_of_blank (xs ys : List (List Char))
    (h : ∀ l ∈ xs, isBlank l = true) : trimLinesLeft (xs ++ ys) = trimLinesLeft ys := by
  induction xs with
  | nil => rfl
  | cons l rest ih =>
    rw [List.cons_append, trimLinesLeft_cons_blank l _ (h l (List.mem_cons_self _ _))]
    exact ih (fun x hx => h x (List.mem_cons_of_mem _ hx))

theorem trimLinesLeft_append_of_nonblank (xs ys : List (List Char))
    (h : ∃ l ∈ xs, isBlank l = false) : trimLinesLeft (xs ++ ys) = trimLinesLeft xs ++ ys := by
  induction xs with
  | nil => simp at h
  | cons l rest ih =>
    by_cases hb : isBlank l = true
    · rw [List.cons_append, trimLinesLeft_cons_blank l _ hb, trimLinesLeft_cons_blank l _ hb]
      obtain ⟨x, hx, hxb⟩ := h
      rcases List.mem_cons.mp hx with rfl | hx
      · rw [hb] at hxb; simp at hxb
      · exact ih ⟨x, hx, hxb⟩
    · rw [List.cons_append, trimLinesLeft_cons_nonblank l _ (by simpa using hb),
        trimLinesLeft_cons_nonblank l _ (by simpa using hb)]
      rfl

theorem trimLinesRight_eq_nil_iff (ls : List (List Char)) :
    trimLinesRight ls = [] ↔ ∀ l ∈ ls, isBlank l = true := by
  induction ls with
  | nil => simp [trimLinesRight]
  | cons l rest ih =>
    rw [trimLinesRight_cons]
    by_cases h1 : trimLinesRight rest = []
    · rw [if_pos h1]
      by_cases hb : isBlank l = true
      · simpa [hb] using ih.mp h1
      · simp [hb]
    · rw [if_neg h1]
      simp only [List.cons_ne_nil, false_iff]
      intro hall
      exact h1 (ih.mpr (fun x hx => hall x (List.mem_cons_of_mem _ hx)))

theorem trimLinesRight_append_of_blank (xs ys : List (List Char))
    (h : ∀ l ∈ ys, isBlank l = true) : trimLinesRight (xs ++ ys) = trimLinesRight xs := by
  induction xs with
  | nil => simpa using (trimLinesRight_eq_nil_iff ys).mpr h
  | cons l rest ih => rw [List.cons_append, trimLinesRight_cons, trimLinesRight_cons, ih]

theorem trimLinesRight_append_of_nonblank (xs ys : List (List Char))
    (h : ∃ l ∈ ys, isBlank l = false) : trimLinesRight (xs ++ ys) = xs ++ trimLinesRight ys := by
  have hne : trimLinesRight ys ≠ [] := by
    intro hnil
    obtain ⟨l, hl, hb⟩ := h
    rw [(trimLinesRight_eq_nil_iff ys).mp hnil l hl] at hb
    simp at hb
  induction xs with
  | nil => rfl
  | cons l rest ih =>
    rw [List.cons_append, trimLinesRight_cons, ih, if_neg (by simp [hne])]
    rfl

theorem trimLinesRight_singleton (l : List Char) (h : isBlank l = false) :
    trimLinesRight [l] = [l.rdropWhile isSpace] := by
  simp [trimLinesRight, h]
theorem split_append_of_not_mem (sep : Char) (w r : List Char) (h : sep ∉ w) :
    split sep (w ++ r) = (w ++ (split sep r).headD []) :: (split sep r).tail := by
  induction w with
  | nil =>
    cases hs : split sep r with
    | nil => exact absurd hs (split_ne_nil sep r)
    | cons a as => simp [hs]
  | cons c cs ih =>
    simp only [List.mem_cons, not_or] at h
    rw [List.cons_append, split_cons, if_neg (fun e => h.1 e.symm), ih h.2]
    rfl

theorem isMalformed_dropWhile (m : List Char) :
    isMalformed (m.dropWhile isSpace) = isMalformed m := by
  have hw : ',' ∉ m.takeWhile isSpace := by
    intro hm
    exact absurd (List.mem_takeWhile_imp hm) (by decide)
  have e := split_append_of_not_mem ',' (m.takeWhile isSpace) (m.dropWhile isSpace) hw
  rw [List.takeWhile_append_dropWhile] at e
  unfold isMalformed
  rw [e]
  cases hs : split ',' (m.dropWhile isSpace) with
  | nil => exact absurd hs (split_ne_nil _ _)
  | cons a as => cases as <;> rfl

theorem dropWhile_of_startsClean (f : List Char) (h : startsClean f = true) :
    f.dropWhile isSpace = f := by
  cases f with
  | nil => rfl
  | cons c cs =>
    simp only [startsClean, List.head?_cons, Bool.not_eq_true'] at h
    rw [List.dropWhile_cons_of_neg (by simp [h])]

theorem rdropWhile_of_endsClean (l : List Char) (h : endsClean l = true) :
    l.rdropWhile isSpace = l := by
  rw [List.rdropWhile_eq_self_iff]
  intro hne
  unfold endsClean at h
  rw [List.getLast?_eq_getLast _ hne] at h
  simpa using h

theorem endsClean_dropWhile (l : List Char) (h : endsClean l = true)
    (hb : isBlank l = false) : endsClean (l.dropWhile isSpace) = true := by
  have hne : l.dropWhile isSpace ≠ [] := by
    intro hnil
    rw [(isBlank_iff_dropWhile l).mpr hnil] at hb
    simp at hb
  obtain ⟨y, hy⟩ := Option.isSome_iff_exists.mp
    (by simpa using hne : (l.dropWhile isSpace).getLast?.isSome)
  have e := List.takeWhile_append_dropWhile isSpace l
  have hl : l.getLast? = some y := by
    rw [← e, List.getLast?_append, hy]
    rfl
  unfold endsClean at h ⊢
  rw [hl] at h
  rw [hy]
  exact h

theorem isBlank_dropWhile (l : List Char) (hb : isBlank l = false) :
    isBlank (l.dropWhile isSpace) = false := by
  by_contra h
  simp only [Bool.not_eq_false] at h
  have h1 := (isBlank_iff_dropWhile _).mp h
  rw [List.dropWhile_idempotent] at h1
  rw [(isBlank_iff_dropWhile l).mpr h1] at hb
  simp at hb

theorem firstNonBlank_eq_none_iff (ls : List (List Char)) :
    firstNonBlank ls = none ↔ ∀ l ∈ ls, isBlank l = true := by
  simp [firstNonBlank]

theorem exists_nonblank_of_ne_none (ls : List (List Char)) (h : firstNonBlank ls ≠ none) :
    ∃ l ∈ ls, isBlank l = false := by
  by_contra hcon
  push_neg at hcon
  exact h ((firstNonBlank_eq_none_iff ls).mpr (fun l hl => by simpa using hcon l hl))

theorem lastNonBlank_eq_none_iff (ls : List (List Char)) :
    lastNonBlank ls = none ↔ ∀ l ∈ ls, isBlank l = true := by
  simp [lastNonBlank, firstNonBlank]

theorem lastNonBlank_cons (l : List Char) (ls : List (List Char)) :
    lastNonBlank (l :: ls) = (lastNonBlank ls).or (if isBlank l then none else some l) := by
  unfold lastNonBlank firstNonBlank
  rw [List.reverse_cons, List.find?_append]
  by_cases hb : isBlank l = true <;> simp [hb]

theorem filterMap_trimLinesRight (repoDir : String) (ls : List (List Char))
    (h : ∀ x, lastNonBlank ls = some x → endsClean x = true) :
    (trimLinesRight ls).filterMap (lineRecord repoDir) = ls.filterMap (lineRecord repoDir) := by
  induction ls with
  | nil => rfl
  | cons l rest ih =>
    rw [trimLinesRight_cons]
    rw [lastNonBlank_cons] at h
    by_cases h1 : trimLinesRight rest = []
    · have hall := (trimLinesRight_eq_nil_iff rest).mp h1
      rw [if_pos h1, List.filterMap_cons, filterMap_of_blank repoDir rest hall]
      rw [(lastNonBlank_eq_none_iff rest).mpr hall] at h
      by_cases hb : isBlank l = true
      · simp [hb, lineRecord_of_blank repoDir l hb]
      · have hc := h l (by simp [hb])
        simp [hb, rdropWhile_of_endsClean l hc, List.filterMap_cons]
    · rw [if_neg h1, List.filterMap_cons, List.filterMap_cons]
      have hsome : ∃ y, lastNonBlank rest = some y := by
        cases hl : lastNonBlank rest with
        | none => exact absurd ((trimLinesRight_eq_nil_iff rest).mpr
            ((lastNonBlank_eq_none_iff rest).mp hl)) h1
        | some y => exact ⟨y, rfl⟩
      obtain ⟨y, hy⟩ := hsome
      rw [hy] at h
      rw [ih (fun x hx => h x (by rw [hy] at hx; simpa using hx))]

theorem lastNonBlank_trimLinesLeft (ls : List (List Char))
    (h : ∀ x, lastNonBlank ls = some x → endsClean x = true) :
    ∀ x, lastNonBlank (trimLinesLeft ls) = some x → endsClean x = true := by
  induction ls with
  | nil => simp [trimLinesLeft, lastNonBlank, firstNonBlank]
  | cons l rest ih =>
    rw [lastNonBlank_cons] at h
    by_cases hb : isBlank l = true
    · rw [trimLinesLeft_cons_blank l rest hb]
      exact ih (fun x hx => h x (by simp [hx]))
    · have hb' : isBlank l = false := by simpa using hb
      rw [trimLinesLeft_cons_nonblank l rest hb', lastNonBlank_cons]
      intro x hx
      cases hl : lastNonBlank rest with
      | none =>
        rw [hl] at h hx
        simp only [isBlank_dropWhile l hb', Bool.false_eq_true, if_false, Option.or_some,
          Option.none_or, Option.some.injEq] at hx
        subst hx
        exact endsClean_dropWhile l (h l (by simp [hb])) hb'
      | some y =>
        rw [hl] at h hx
        simp only [Option.or, Option.some.injEq] at hx
        exact h x (by simp [hx])

theorem filterMap_trimLinesRight_left (repoDir : String) (ls : List (List Char))
    (h : ∀ f, firstNonBlank ls = some f → startsClean f = true) :
    (trimLinesRight (trimLinesLeft ls)).filterMap (lineRecord repoDir) =
      (trimLinesRight ls).filterMap (lineRecord repoDir) := by
  induction ls with
  | nil => rfl
  | cons l rest ih =>
    by_cases hb : isBlank l = true
    · have hf : firstNonBlank (l :: rest) = firstNonBlank rest := by
        simp [firstNonBlank, hb]
      rw [hf] at h
      rw [trimLinesLeft_cons_blank l rest hb, ih h, trimLinesRight_cons]
      by_cases h1 : trimLinesRight rest = []
      · simp [h1, hb]
      · simp [h1, lineRecord_of_blank repoDir l hb]
    · have hf : firstNonBlank (l :: rest) = some l := by
        simp [firstNonBlank, hb]
      rw [trimLinesLeft_cons_nonblank l rest (by simpa using hb),
        dropWhile_of_startsClean l (h l hf)]
theorem records_insert_malformed (repoDir : String) (pre post : List (List Char))
    (m : List Char) (hm : isMalformed m = true)
    (hfront : firstNonBlank pre ≠ none ∨ isBlank m = true ∨
      ∀ f, firstNonBlank post = some f → startsClean f = true)
    (hback : firstNonBlank post ≠ none ∨ isBlank m = true ∨
      (endsClean m = true ∧ ∀ l, lastNonBlank pre = some l → endsClean l = true)) :
    (trimLinesRight (trimLinesLeft (pre ++ m :: post))).filterMap (lineRecord repoDir) =
      (trimLinesRight (trimLinesLeft (pre ++ post))).filterMap (lineRecord repoDir) := by
  have hrm := lineRecord_of_malformed repoDir m hm
  by_cases hP : firstNonBlank pre = none
  · have hpre := (firstNonBlank_eq_none_iff pre).mp hP
    rw [trimLinesLeft_append_of_blank pre _ hpre, trimLinesLeft_append_of_blank pre _ hpre]
    by_cases hmb : isBlank m = true
    · rw [trimLinesLeft_cons_blank m post hmb]
    · have hmb' : isBlank m = false := by simpa using hmb
      have hrd : lineRecord repoDir (m.dropWhile isSpace) = none :=
        lineRecord_of_malformed repoDir _ (by rw [isMalformed_dropWhile]; exact hm)
      rw [trimLinesLeft_cons_nonblank m post hmb']
      by_cases hQ : firstNonBlank post = none
      · have hpost := (firstNonBlank_eq_none_iff post).mp hQ
        have hclean : endsClean m = true := by
          rcases hback with h | h | h
          · exact absurd hQ h
          · exact absurd h hmb
          · exact h.1
        rw [trimLinesLeft_of_blank post hpost,
          show m.dropWhile isSpace :: post = [m.dropWhile isSpace] ++ post from rfl,
          trimLinesRight_append_of_blank _ _ hpost,
          trimLinesRight_singleton _ (isBlank_dropWhile m hmb'),
          rdropWhile_of_endsClean _ (endsClean_dropWhile m hclean hmb')]
        simp [trimLinesRight, hrd]
      · have hfirst : ∀ f, firstNonBlank post = some f → startsClean f = true := by
          rcases hfront with h | h | h
          · exact absurd hP h
          · exact absurd h hmb
          · exact h
        rw [show m.dropWhile isSpace :: post = [m.dropWhile isSpace] ++ post from rfl,
          trimLinesRight_append_of_nonblank _ _ (exists_nonblank_of_ne_none post hQ),
          List.filterMap_append, filterMap_trimLinesRight_left repoDir post hfirst]
        simp [hrd]
  · have hpre := exists_nonblank_of_ne_none pre hP
    rw [trimLinesLeft_append_of_nonblank pre _ hpre, trimLinesLeft_append_of_nonblank pre _ hpre]
    by_cases hQ : firstNonBlank post = none
    · have hpost := (firstNonBlank_eq_none_iff post).mp hQ
      rw [trimLinesRight_append_of_blank _ post hpost]
      by_cases hmb : isBlank m = true
      · rw [trimLinesRight_append_of_blank _ (m :: post) (by
          intro l hl
          rcases List.mem_cons.mp hl with rfl | hl
          · exact hmb
          · exact hpost l hl)]
      · have hmb' : isBlank m = false := by simpa using hmb
        obtain ⟨hclean, hlast⟩ : endsClean m = true ∧
            ∀ l, lastNonBlank pre = some l → endsClean l = true := by
          rcases hback with h | h | h
          · exact absurd hQ h
          · exact absurd h hmb
          · exact h
        rw [show trimLinesLeft pre ++ m :: post = (trimLinesLeft pre ++ [m]) ++ post by simp,
          trimLinesRight_append_of_blank _ post hpost,
          trimLinesRight_append_of_nonblank _ [m] ⟨m, List.mem_singleton_self _, hmb'⟩,
          trimLinesRight_singleton m hmb', rdropWhile_of_endsClean m hclean,
          List.filterMap_append,
          filterMap_trimLinesRight repoDir _ (lastNonBlank_trimLinesLeft pre hlast)]
        simp [hrm]
    · have hpost := exists_nonblank_of_ne_none post hQ
      rw [show trimLinesLeft pre ++ m :: post = (trimLinesLeft pre ++ [m]) ++ post by simp,
        trimLinesRight_append_of_nonblank _ post hpost,
        trimLinesRight_append_of_nonblank _ post hpost]
      simp [hrm]

/-- C2 (as stated, refuted): the line `b,2 ` is malformed (its second field `2 `,
with a trailing space, is rejected by `strconv.ParseInt`), yet appended to the
output `a,1` it gives a record: `strings.TrimSpace` of the whole output removes
the space before the lines are split. -/
theorem malformed_last_line_gives_record :
    isMalformed "b,2 ".data = true ∧
      parseOutput "repo" (String.mk (joinLines ["a,1".data])) =
        [{ Name := "repo", Commit := "a", Date := timeUnix 1 0 }] ∧
      parseOutput "repo" (String.mk (joinLines ["a,1".data, "b,2 ".data])) =
        [{ Name := "repo", Commit := "a", Date := timeUnix 1 0 },
         { Name := "repo", Commit := "b", Date := timeUnix 2 0 }] := by
  decide

/-- C2 (amended): a malformed line `m` inserted at any position of a git output
gives no record and does not stop the parse: `getCommitsFromDate` returns a nil
error and the records of the output without `m`, in their order, provided the
white space that `strings.TrimSpace` removes at the two ends of the whole
output is not at stake: when no non-blank line precedes `m` (and `m` is not
blank), the first non-blank line after `m` has no leading white space; when no
non-blank line follows `m` (and `m` is not blank), `m` has no trailing white
space and neither has the last non-blank line before `m`. Between two
non-blank lines every malformed line qualifies, in every output. -/
theorem getCommitsFromDate_skips_malformed_line {σ : Type} (w w' : World σ)
    (repoDir : String) (date : Time) (s s1 s' s1' : σ) (pre post : List (List Char))
    (m : List Char)
    (hlines : ∀ l ∈ pre ++ m :: post, '\n' ∉ l)
    (hm : isMalformed m = true)
    (hfront : firstNonBlank pre ≠ none ∨ isBlank m = true ∨
      ∀ f, firstNonBlank post = some f → startsClean f = true)
    (hback : firstNonBlank post ≠ none ∨ isBlank m = true ∨
      (endsClean m = true ∧ ∀ l, lastNonBlank pre = some l → endsClean l = true))
    (hrun : w.output s "git" (gitArgs (w.format date "2006-01-02")) repoDir =
      (.ok (String.mk (joinLines (pre ++ post))), s1))
    (hrun' : w'.output s' "git" (gitArgs (w'.format date "2006-01-02")) repoDir =
      (.ok (String.mk (joinLines (pre ++ m :: post))), s1')) :
    getCommitsFromDate w repoDir date s =
        (.ok (parseOutput repoDir (String.mk (joinLines (pre ++ post)))), s1) ∧
      getCommitsFromDate w' repoDir date s' =
        (.ok (parseOutput repoDir (String.mk (joinLines (pre ++ post)))), s1') := by
  have h1 : ∀ l ∈ pre ++ post, '\n' ∉ l := by
    intro l hl
    refine hlines l ?_
    rcases List.mem_append.mp hl with h | h
    · exact List.mem_append_left _ h
    · exact List.mem_append_right _ (List.mem_cons_of_mem _ h)
  constructor
  · simp only [getCommitsFromDate, hrun]
  · simp only [getCommitsFromDate, hrun', parseOutput_lines repoDir _ hlines,
      parseOutput_lines repoDir _ h1,
      records_insert_malformed repoDir pre post m hm hfront hback]

theorem getCommitsFromDate_skips_malformed_line_witness :
    getCommitsFromDate (gitWorld "a,1\r\nc,3\r\n") "repo" ⟨0, 0⟩ () =
        (.ok (parseOutput "repo"
          (String.mk (joinLines (["a,1\r".data] ++ ["c,3\r".data, "".data])))), ()) ∧
      getCommitsFromDate (gitWorld "a,1\r\nb,2 \nc,3\r\n") "repo" ⟨0, 0⟩ () =
        (.ok (parseOutput "repo"
          (String.mk (joinLines (["a,1\r".data] ++ ["c,3\r".data, "".data])))), ()) :=
  getCommitsFromDate_skips_malformed_line (gitWorld "a,1\r\nc,3\r\n")
    (gitWorld "a,1\r\nb,2 \nc,3\r\n") "repo" ⟨0, 0⟩ () () () () ["a,1\r".data]
    ["c,3\r".data, "".data] "b,2 ".data (by decide) (by decide) (Or.inl (by decide))
    (Or.inl (by decide)) rfl rfl

/-! ## The rows and the loop of `main` -/

theorem sprintfAux_repoName (project repo : String) :
    sprintfAux "github.com/%s/%s".data [project, repo] =
      "github.com/".data ++ project.data ++ "/".data ++ repo.data := by
  simp [sprintfAux]

theorem sprintf_repoName (project repo : String) :
    sprintf "github.com/%s/%s" [project, repo] = "github.com/" ++ project ++ "/" ++ repo := by
  apply String.ext
  simp only [String.data_append]
  exact sprintfAux_repoName project repo

theorem mainLoop_cons {σ : Type} (w : World σ) (project repo : String) (c : RepoData)
    (cs : List RepoData) (s : σ) :
    (mainLoop w project repo (c :: cs) s).1 =
      (mainLoopBody w project repo c s).1 ++
        (mainLoop w project repo cs (mainLoopBody w project repo c s).2).1 := by
  rfl

theorem fetchCalls_append (a b : List Event) :
    fetchCalls (a ++ b) = fetchCalls a ++ fetchCalls b := by
  simp [fetchCalls]

theorem fetchResults_append (a b : List Event) :
    fetchResults (a ++ b) = fetchResults a ++ fetchResults b := by
  simp [fetchResults]

theorem savedRows_append (a b : List Event) :
    savedRows (a ++ b) = savedRows a ++ savedRows b := by
  simp [savedRows]

theorem fetchCalls_body {σ : Type} (w : World σ) (project repo : String) (c : RepoData)
    (s : σ) : fetchCalls (mainLoopBody w project repo c s).1 = [(project, repo, c.Commit)] := by
  unfold mainLoopBody
  rcases getScorecardData w project repo c.Commit s with ⟨r, s1⟩
  cases r with
  | error e => rfl
  | ok d =>
    simp only
    rcases saveToBigQuery w (makeRow project repo c d) s1 with ⟨e, s2⟩
    cases e <;> rfl

theorem fetchResults_body {σ : Type} (w : World σ) (project repo : String) (c : RepoData)
    (s : σ) :
    fetchResults (mainLoopBody w project repo c s).1 =
      [(getScorecardData w project repo c.Commit s).1] := by
  unfold mainLoopBody
  rcases getScorecardData w project repo c.Commit s with ⟨r, s1⟩
  cases r with
  | error e => rfl
  | ok d =>
    simp only
    rcases saveToBigQuery w (makeRow project repo c d) s1 with ⟨e, s2⟩
    cases e <;> rfl

theorem savedRows_body {σ : Type} (w : World σ) (project repo : String) (c : RepoData)
    (s : σ) :
    savedRows (mainLoopBody w project repo c s).1 =
      (rowIfFetched project repo (c, (getScorecardData w project repo c.Commit s).1)).toList := by
  unfold mainLoopBody
  rcases getScorecardData w project repo c.Commit s with ⟨r, s1⟩
  cases r with
  | error e => rfl
  | ok d =>
    simp only
    rcases saveToBigQuery w (makeRow project repo c d) s1 with ⟨e, s2⟩
    cases e <;> rfl

theorem fetchCalls_mainLoop {σ : Type} (w : World σ) (project repo : String)
    (commits : List RepoData) (s : σ) :
    fetchCalls (mainLoop w project repo commits s).1 =
      commits.map (fun c => (project, repo, c.Commit)) := by
  induction commits generalizing s with
  | nil => rfl
  | cons c cs ih => rw [mainLoop_cons, fetchCalls_append, fetchCalls_body, ih]; rfl

theorem length_fetchResults_mainLoop {σ : Type} (w : World σ) (project repo : String)
    (commits : List RepoData) (s : σ) :
    (fetchResults (mainLoop w project repo commits s).1).length = commits.length := by
  induction commits generalizing s with
  | nil => rfl
  | cons c cs ih =>
    rw [mainLoop_cons, fetchResults_append, fetchResults_body, List.length_append, ih]
    simp [Nat.add_comm]

theorem savedRows_mainLoop {σ : Type} (w : World σ) (project repo : String)
    (commits : List RepoData) (s : σ) :
    savedRows (mainLoop w project repo commits s).1 =
      (commits.zip (fetchResults (mainLoop w project repo commits s).1)).filterMap
        (rowIfFetched project repo) := by
  induction commits generalizing s with
  | nil => rfl
  | cons c cs ih =>
    rw [mainLoop_cons, savedRows_append, fetchResults_append, savedRows_body,
      fetchResults_body, ih]
    simp only [List.singleton_append, List.zip_cons_cons, List.filterMap_cons]
    cases rowIfFetched project repo (c, (getScorecardData w project repo c.Commit s).1) <;> rfl

theorem mainLoop_cons_snd {σ : Type} (w : World σ) (project repo : String) (c : RepoData)
    (cs : List RepoData) (s : σ) :
    (mainLoop w project repo (c :: cs) s).2 =
      (mainLoop w project repo cs (mainLoopBody w project repo c s).2).2 := by
  rfl

theorem mainLoopBody_snd {σ : Type} (w : World σ) (project repo : String) (c : RepoData)
    (s : σ) : (mainLoopBody w project repo c s).2 = expectedStep w project repo s c := by
  unfold mainLoopBody expectedStep
  rcases getScorecardData w project repo c.Commit s with ⟨r, s1⟩
  cases r with
  | error e => rfl
  | ok d =>
    simp only
    rcases saveToBigQuery w (makeRow project repo c d) s1 with ⟨e, s2⟩
    cases e <;> rfl

theorem mainLoop_snd {σ : Type} (w : World σ) (project repo : String)
    (commits : List RepoData) (s : σ) :
    (mainLoop w project repo commits s).2 = commits.foldl (expectedStep w project repo) s := by
  induction commits generalizing s with
  | nil => rfl
  | cons c cs ih => rw [mainLoop_cons_snd, ih, mainLoopBody_snd, List.foldl_cons]

theorem fetchResults_mainLoop {σ : Type} (w : World σ) (project repo : String)
    (commits : List RepoData) (s : σ) :
    fetchResults (mainLoop w project repo commits s).1 =
      expectedFetches w project repo commits s := by
  induction commits generalizing s with
  | nil => rfl
  | cons c cs ih =>
    rw [mainLoop_cons, fetchResults_append, fetchResults_body, ih, mainLoopBody_snd]
    rfl

theorem saveCalls_append (a b : List Event) :
    saveCalls (a ++ b) = saveCalls a ++ saveCalls b := by
  simp [saveCalls]

theorem saveCalls_mainLoop {σ : Type} (w : World σ) (project repo : String)
    (commits : List RepoData) (s : σ) :
    saveCalls (mainLoop w project repo commits s).1 =
      expectedWrites w project repo commits s := by
  induction commits generalizing s with
  | nil => rfl
  | cons c cs ih =>
    rw [mainLoop_cons, saveCalls_append, ih, mainLoopBody_snd]
    unfold mainLoopBody
    rw [expectedWrites]
    rcases hg : getScorecardData w project repo c.Commit s with ⟨r, s1⟩
    cases r with
    | error e => rfl
    | ok d =>
      simp only
      rcases hs : saveToBigQuery w (makeRow project repo c d) s1 with ⟨e, s2⟩
      cases e <;> rfl

theorem fetchedDocs_append (a b : List Event) :
    fetchedDocs (a ++ b) = fetchedDocs a ++ fetchedDocs b := by
  simp [fetchedDocs, fetchResults_append]

theorem copied_body {σ : Type} (w : World σ) (project repo : String) (c : RepoData) (s : σ) :
    (savedRows (mainLoopBody w project repo c s).1).map
        (fun r => (r.Score, r.Checks, r.Scorecard.Version, r.Scorecard.Commit)) =
      (fetchedDocs (mainLoopBody w project repo c s).1).map
        (fun d => (d.Score, d.Checks, d.Scorecard.Version, d.Scorecard.Commit)) := by
  rw [savedRows_body, fetchedDocs, fetchResults_body]
  cases (getScorecardData w project repo c.Commit s).1 <;> rfl

theorem mem_savedRows_mainLoop {σ : Type} (w : World σ) (project repo : String)
    (commits : List RepoData) (s : σ) (row : ScorecardRow)
    (h : row ∈ savedRows (mainLoop w project repo commits s).1) :
    ∃ c d, c ∈ commits ∧ row = makeRow project repo c d := by
  rw [savedRows_mainLoop, List.mem_filterMap] at h
  obtain ⟨⟨c, r⟩, hmem, hrow⟩ := h
  cases r with
  | error e => simp [rowIfFetched] at hrow
  | ok d =>
    simp only [rowIfFetched, Option.some.injEq] at hrow
    exact ⟨c, d, (List.of_mem_zip hmem).1, hrow.symm⟩

/-- C4: every row that the loop of `main` hands to the writer, and the row
built for any commit and any scorecard document, has `Repo.Name` equal to
`"github.com/" ++ project ++ "/" ++ repo`, whatever the two strings hold and
whatever the name in the document and the repository directory are. -/
theorem row_repo_name {σ : Type} (w : World σ) (project repo : String)
    (commits : List RepoData) (s : σ) (row : ScorecardRow)
    (hrow : row ∈ savedRows (mainLoop w project repo commits s).1) :
    row.Repo.Name = "github.com/" ++ project ++ "/" ++ repo ∧
      ∀ (commit : RepoData) (d : ScorecardData),
        (makeRow project repo commit d).Repo.Name = "github.com/" ++ project ++ "/" ++ repo := by
  have hall : ∀ (commit : RepoData) (d : ScorecardData),
      (makeRow project repo commit d).Repo.Name = "github.com/" ++ project ++ "/" ++ repo :=
    fun _ _ => sprintf_repoName project repo
  obtain ⟨c, d, _, rfl⟩ := mem_savedRows_mainLoop w project repo commits s row hrow
  exact ⟨hall c d, hall⟩

theorem row_repo_name_witness :
    (makeRow "a%sb" "c/d" ⟨"repo", "abc123", timeUnix 1700000000 0⟩ sampleDoc).Repo.Name =
        "github.com/" ++ "a%sb" ++ "/" ++ "c/d" ∧
      ∀ (commit : RepoData) (d : ScorecardData),
        (makeRow "a%sb" "c/d" commit d).Repo.Name = "github.com/" ++ "a%sb" ++ "/" ++ "c/d" :=
  row_repo_name (sampleWorld 0 "") "a%sb" "c/d" sampleCommits 0
    (makeRow "a%sb" "c/d" ⟨"repo", "abc123", timeUnix 1700000000 0⟩ sampleDoc) (by decide)

/-- C5: the rows that the loop of `main` hands to the writer carry, in order,
the score, the check list, the scorecard version and the scorecard commit of
the documents fetched, unchanged; so does the row built for any commit and any
document. -/
theorem rows_copy_scorecard {σ : Type} (w : World σ) (project repo : String)
    (commits : List RepoData) (s : σ) :
    (savedRows (mainLoop w project repo commits s).1).map
        (fun r => (r.Score, r.Checks, r.Scorecard.Version, r.Scorecard.Commit)) =
      (fetchedDocs (mainLoop w project repo commits s).1).map
        (fun d => (d.Score, d.Checks, d.Scorecard.Version, d.Scorecard.Commit)) ∧
      ∀ (commit : RepoData) (d : ScorecardData),
        (makeRow project repo commit d).Score = d.Score ∧
        (makeRow project repo commit d).Checks = d.Checks ∧
        (makeRow project repo commit d).Scorecard.Version = d.Scorecard.Version ∧
        (makeRow project repo commit d).Scorecard.Commit = d.Scorecard.Commit := by
  refine ⟨?_, fun _ _ => ⟨rfl, rfl, rfl, rfl⟩⟩
  induction commits generalizing s with
  | nil => rfl
  | cons c cs ih =>
    rw [mainLoop_cons, savedRows_append, fetchedDocs_append, List.map_append, List.map_append,
      copied_body, ih]

/-- C6: for the commit list holding the single commit of hash `h` and time `T1`
and a fetch that succeeds with the document `d`, the loop hands exactly one row
to the writer: it calls `saveToBigQuery` once, with that row, in the world left
by the fetch, and ends in the world left by that call; the `Score` of the row
is that of `d`, its `Repo.Commit` is `h` and its `Date` is `T1`, the values of
the commit record. -/
theorem single_commit_row {σ : Type} (w : World σ) (project repo name h : String) (T1 : Time)
    (d : ScorecardData) (s s1 : σ)
    (hfetch : getScorecardData w project repo h s = (.ok d, s1)) :
    savedRows (mainLoop w project repo [{ Name := name, Commit := h, Date := T1 }] s).1 =
        [makeRow project repo { Name := name, Commit := h, Date := T1 } d] ∧
      (makeRow project repo { Name := name, Commit := h, Date := T1 } d).Score = d.Score ∧
      (makeRow project repo { Name := name, Commit := h, Date := T1 } d).Repo.Commit = h ∧
      (makeRow project repo { Name := name, Commit := h, Date := T1 } d).Date = T1 ∧
      saveCalls (mainLoop w project repo [{ Name := name, Commit := h, Date := T1 }] s).1 =
        [(makeRow project repo { Name := name, Commit := h, Date := T1 } d,
          (saveToBigQuery w
            (makeRow project repo { Name := name, Commit := h, Date := T1 } d) s1).1)] ∧
      (mainLoop w project repo [{ Name := name, Commit := h, Date := T1 }] s).2 =
        (saveToBigQuery w
          (makeRow project repo { Name := name, Commit := h, Date := T1 } d) s1).2 := by
  refine ⟨?_, rfl, rfl, rfl, ?_, ?_⟩
  · rw [mainLoop_cons, savedRows_append, savedRows_body]
    simp only [hfetch]
    rfl
  · rw [saveCalls_mainLoop]
    simp only [expectedWrites, hfetch]
  · rw [mainLoop_snd]
    simp only [List.foldl_cons, List.foldl_nil, expectedStep, hfetch]

theorem single_commit_row_witness :
    (savedRows (mainLoop (recordingWorld 0 "") "ossf" "scorecard"
        [{ Name := "repo", Commit := "abc123", Date := timeUnix 1700000000 0 }] []).1 =
        [makeRow "ossf" "scorecard"
          { Name := "repo", Commit := "abc123", Date := timeUnix 1700000000 0 } sampleDoc] ∧
      (makeRow "ossf" "scorecard"
        { Name := "repo", Commit := "abc123", Date := timeUnix 1700000000 0 } sampleDoc).Score =
        sampleDoc.Score ∧
      (makeRow "ossf" "scorecard"
        { Name := "repo", Commit := "abc123", Date := timeUnix 1700000000 0 }
        sampleDoc).Repo.Commit = "abc123" ∧
      (makeRow "ossf" "scorecard"
        { Name := "repo", Commit := "abc123", Date := timeUnix 1700000000 0 } sampleDoc).Date =
        timeUnix 1700000000 0 ∧
      saveCalls (mainLoop (recordingWorld 0 "") "ossf" "scorecard"
        [{ Name := "repo", Commit := "abc123", Date := timeUnix 1700000000 0 }] []).1 =
        [(makeRow "ossf" "scorecard"
            { Name := "repo", Commit := "abc123", Date := timeUnix 1700000000 0 } sampleDoc,
          (saveToBigQuery (recordingWorld 0 "")
            (makeRow "ossf" "scorecard"
              { Name := "repo", Commit := "abc123", Date := timeUnix 1700000000 0 } sampleDoc)
            [.httpGet
              "https://api.securityscorecards.dev/projects/github.com/ossf/scorecard?commit=abc123"]).1)] ∧
      (mainLoop (recordingWorld 0 "") "ossf" "scorecard"
        [{ Name := "repo", Commit := "abc123", Date := timeUnix 1700000000 0 }] []).2 =
        (saveToBigQuery (recordingWorld 0 "")
          (makeRow "ossf" "scorecard"
            { Name := "repo", Commit := "abc123", Date := timeUnix 1700000000 0 } sampleDoc)
          [.httpGet
            "https://api.securityscorecards.dev/projects/github.com/ossf/scorecard?commit=abc123"]).2) ∧
      (mainLoop (recordingWorld 0 "") "ossf" "scorecard"
        [{ Name := "repo", Commit := "abc123", Date := timeUnix 1700000000 0 }] []).2 =
        [.httpGet
            "https://api.securityscorecards.dev/projects/github.com/ossf/scorecard?commit=abc123",
          .put "phren" "scorecard"
            (makeRow "ossf" "scorecard"
              { Name := "repo", Commit := "abc123", Date := timeUnix 1700000000 0 }
              sampleDoc)] :=
  ⟨single_commit_row (recordingWorld 0 "") "ossf" "scorecard" "repo" "abc123"
      (timeUnix 1700000000 0) sampleDoc []
      [.httpGet
        "https://api.securityscorecards.dev/projects/github.com/ossf/scorecard?commit=abc123"]
      (by decide),
    by decide⟩

/-- C7: the loop of `main` calls `getScorecardData` once for every commit of
the list, in list order, whatever the calls return: the values it receives are
those that the fetches return, each made in the world left by the commits
before it; a commit whose fetch succeeds has its row handed to the writer,
whatever happened to the commits before it; the writes made and the world at
the end are those of fetching every commit and writing every fetched one. -/
theorem fetch_every_commit {σ : Type} (w : World σ) (project repo : String)
    (commits : List RepoData) (s : σ) :
    fetchCalls (mainLoop w project repo commits s).1 =
        commits.map (fun c => (project, repo, c.Commit)) ∧
      (∀ (i : Nat) (c : RepoData) (d : ScorecardData), commits[i]? = some c →
        (fetchResults (mainLoop w project repo commits s).1)[i]? = some (.ok d) →
        makeRow project repo c d ∈ savedRows (mainLoop w project repo commits s).1) ∧
      fetchResults (mainLoop w project repo commits s).1 =
        expectedFetches w project repo commits s ∧
      saveCalls (mainLoop w project repo commits s).1 =
        expectedWrites w project repo commits s ∧
      (mainLoop w project repo commits s).2 = commits.foldl (expectedStep w project repo) s := by
  refine ⟨fetchCalls_mainLoop w project repo commits s, ?_,
    fetchResults_mainLoop w project repo commits s,
    saveCalls_mainLoop w project repo commits s, mainLoop_snd w project repo commits s⟩
  intro i c d hc hd
  rw [savedRows_mainLoop, List.mem_filterMap]
  refine ⟨(c, .ok d), ?_, rfl⟩
  exact List.getElem?_mem (List.getElem?_zip_eq_some.mpr ⟨hc, hd⟩)

theorem fetch_every_commit_witness :
    (fetchResults (mainLoop (recordingWorld 1 "") "ossf" "scorecard" sampleCommits []).1)[0]? =
        some (.error (.wrapped "failed to get scorecard data: " (.external "timeout"))) ∧
      makeRow "ossf" "scorecard" ⟨"repo", "def456", timeUnix 1699990000 0⟩ sampleDoc ∈
        savedRows (mainLoop (recordingWorld 1 "") "ossf" "scorecard" sampleCommits []).1 ∧
      (mainLoop (recordingWorld 1 "") "ossf" "scorecard" sampleCommits []).2 =
        [.httpGet
            "https://api.securityscorecards.dev/projects/github.com/ossf/scorecard?commit=abc123",
          .httpGet
            "https://api.securityscorecards.dev/projects/github.com/ossf/scorecard?commit=def456",
          .put "phren" "scorecard"
            (makeRow "ossf" "scorecard" ⟨"repo", "def456", timeUnix 1699990000 0⟩ sampleDoc)] :=
  ⟨by decide,
   (fetch_every_commit (recordingWorld 1 "") "ossf" "scorecard" sampleCommits []).2.1 1
    ⟨"repo", "def456", timeUnix 1699990000 0⟩ sampleDoc (by decide) (by decide),
   by decide⟩

theorem mainWithDays_trace {σ : Type} (w : World σ) (repoDir project repo : String) (days : Int)
    (s s2 : σ) (commits : List RepoData)
    (hlist : getCommitsFromDate w repoDir (w.addDate (w.now s).1 0 0 (wrapInt64 (-days)))
      (w.now s).2 = (.ok commits, s2)) :
    (mainWithDays w repoDir project repo days s).trace =
        .getCommitsFromDate repoDir (w.addDate (w.now s).1 0 0 (wrapInt64 (-days)))
            (.ok commits) ::
          (mainLoop w project repo commits s2).1 ++
          [.println [.str "All data saved to BigQuery successfully!"]] ∧
      (mainWithDays w repoDir project repo days s).exitCode = 0 ∧
      (mainWithDays w repoDir project repo days s).world =
        (mainLoop w project repo commits s2).2 := by
  unfold mainWithDays
  simp only [hlist]
  trivial

/-- C8: once the commits are listed, `main` fetches every commit, each in the
world left by the commits before it, and calls `saveToBigQuery` exactly for
the commits whose fetch succeeded, in list order and once each, with the row
of the commit, in the world left by its fetch (a failed fetch gives no write,
a failed write is not repeated and does not stop the later ones); the run
ends in the world left by these calls, the trace ends with the final message
and the exit status is 0. -/
theorem run_writes_fetched_rows {σ : Type} (w : World σ) (repoDir project repo : String)
    (days : Int) (s s2 : σ) (commits : List RepoData)
    (hlist : getCommitsFromDate w repoDir (w.addDate (w.now s).1 0 0 (wrapInt64 (-days)))
      (w.now s).2 = (.ok commits, s2)) :
    savedRows (mainWithDays w repoDir project repo days s).trace =
        (commits.zip (fetchResults (mainWithDays w repoDir project repo days s).trace)).filterMap
          (rowIfFetched project repo) ∧
      (fetchResults (mainWithDays w repoDir project repo days s).trace).length =
        commits.length ∧
      (mainWithDays w repoDir project repo days s).trace.getLast? =
        some (.println [.str "All data saved to BigQuery successfully!"]) ∧
      (mainWithDays w repoDir project repo days s).exitCode = 0 ∧
      fetchResults (mainWithDays w repoDir project repo days s).trace =
        expectedFetches w project repo commits s2 ∧
      saveCalls (mainWithDays w repoDir project repo days s).trace =
        expectedWrites w project repo commits s2 ∧
      (mainWithDays w repoDir project repo days s).world =
        commits.foldl (expectedStep w project repo) s2 := by
  obtain ⟨ht, he, hw⟩ := mainWithDays_trace w repoDir project repo days s s2 commits hlist
  have hs : savedRows (mainWithDays w repoDir project repo days s).trace =
      savedRows (mainLoop w project repo commits s2).1 := by
    rw [ht, savedRows_append]
    simp [savedRows]
  have hf : fetchResults (mainWithDays w repoDir project repo days s).trace =
      fetchResults (mainLoop w project repo commits s2).1 := by
    rw [ht, fetchResults_append]
    simp [fetchResults]
  have hc : saveCalls (mainWithDays w repoDir project repo days s).trace =
      saveCalls (mainLoop w project repo commits s2).1 := by
    rw [ht, saveCalls_append]
    simp [saveCalls]
  refine ⟨?_, ?_, ?_, he, ?_, ?_, ?_⟩
  · rw [hs, hf, savedRows_mainLoop]
  · rw [hf, length_fetchResults_mainLoop]
  · rw [ht, List.getLast?_append]
    rfl
  · rw [hf, fetchResults_mainLoop]
  · rw [hc, saveCalls_mainLoop]
  · rw [hw, mainLoop_snd]

theorem run_writes_fetched_rows_witness :
    (savedRows (mainWithDays (recordingWorld 1 "def456") "repo" "ossf" "scorecard" 20 []).trace =
        (sampleCommits.zip
          (fetchResults (mainWithDays (recordingWorld 1 "def456") "repo" "ossf" "scorecard" 20
            []).trace)).filterMap (rowIfFetched "ossf" "scorecard") ∧
      (fetchResults (mainWithDays (recordingWorld 1 "def456") "repo" "ossf" "scorecard" 20
        []).trace).length = sampleCommits.length ∧
      (mainWithDays (recordingWorld 1 "def456") "repo" "ossf" "scorecard" 20 []).trace.getLast? =
        some (.println [.str "All data saved to BigQuery successfully!"]) ∧
      (mainWithDays (recordingWorld 1 "def456") "repo" "ossf" "scorecard" 20 []).exitCode = 0 ∧
      fetchResults (mainWithDays (recordingWorld 1 "def456") "repo" "ossf" "scorecard" 20
        []).trace = expectedFetches (recordingWorld 1 "def456") "ossf" "scorecard" sampleCommits [] ∧
      saveCalls (mainWithDays (recordingWorld 1 "def456") "repo" "ossf" "scorecard" 20
        []).trace = expectedWrites (recordingWorld 1 "def456") "ossf" "scorecard" sampleCommits [] ∧
      (mainWithDays (recordingWorld 1 "def456") "repo" "ossf" "scorecard" 20 []).world =
        sampleCommits.foldl (expectedStep (recordingWorld 1 "def456") "ossf" "scorecard") []) ∧
      (mainWithDays (recordingWorld 0 "abc123") "repo" "ossf" "scorecard" 20 []).world =
        [.httpGet
            "https://api.securityscorecards.dev/projects/github.com/ossf/scorecard?commit=abc123",
          .put "phren" "scorecard"
            (makeRow "ossf" "scorecard" ⟨"repo", "abc123", timeUnix 1700000000 0⟩ sampleDoc),
          .httpGet
            "https://api.securityscorecards.dev/projects/github.com/ossf/scorecard?commit=def456",
          .put "phren" "scorecard"
            (makeRow "ossf" "scorecard" ⟨"repo", "def456", timeUnix 1699990000 0⟩ sampleDoc)] :=
  ⟨run_writes_fetched_rows (recordingWorld 1 "def456") "repo" "ossf" "scorecard" 20 [] []
      sampleCommits (by decide),
    by decide⟩

theorem mainWithDays_head {σ : Type} (w : World σ) (repoDir project repo : String)
    (days : Int) (s : σ) :
    (mainWithDays w repoDir project repo days s).trace.head? =
      some (.getCommitsFromDate repoDir (w.addDate (w.now s).1 0 0 (wrapInt64 (-days)))
        (getCommitsFromDate w repoDir (w.addDate (w.now s).1 0 0 (wrapInt64 (-days)))
          (w.now s).2).1) := by
  unfold mainWithDays
  simp only
  rcases getCommitsFromDate w repoDir (w.addDate (w.now s).1 0 0 (wrapInt64 (-days)))
    (w.now s).2 with ⟨r, s2⟩
  cases r <;> rfl

/-- C9: with the three required arguments and no fourth, `main` runs with a
window of 20 days: it lists the commits from the date 20 days before now; with
a fourth argument that is the decimal numeral of an `int`, it runs with that
integer as the window; with a fourth argument that `strconv.Atoi` rejects, it
prints the error and returns at once: no commit is listed, no scorecard
fetched, no row written, the world is untouched. A fourth argument is always
in one of the last two cases. -/
theorem main_days_argument {σ : Type} (w : World σ) (exe repoDir project repo : String)
    (s : σ) :
    (main w [exe, repoDir, project, repo] s = mainWithDays w repoDir project repo 20 s ∧
      (main w [exe, repoDir, project, repo] s).trace.head? =
        some (.getCommitsFromDate repoDir (w.addDate (w.now s).1 0 0 (-20))
          (getCommitsFromDate w repoDir (w.addDate (w.now s).1 0 0 (-20)) (w.now s).2).1)) ∧
      (∀ (daysBack : String) (rest : List String) (n : Int),
        decimalValue daysBack.data = some n → -2 ^ 63 ≤ n → n < 2 ^ 63 →
        main w (exe :: repoDir :: project :: repo :: daysBack :: rest) s =
            mainWithDays w repoDir project repo n s ∧
          (main w (exe :: repoDir :: project :: repo :: daysBack :: rest) s).trace.head? =
            some (.getCommitsFromDate repoDir (w.addDate (w.now s).1 0 0 (wrapInt64 (-n)))
              (getCommitsFromDate w repoDir (w.addDate (w.now s).1 0 0 (wrapInt64 (-n)))
                (w.now s).2).1)) ∧
      (∀ (daysBack : String) (rest : List String) (kind : NumErrKind),
        atoi daysBack.data = .error kind →
        main w (exe :: repoDir :: project :: repo :: daysBack :: rest) s =
          { trace := [.println [.str "Error parsing days:",
                        .err (.numError "Atoi" daysBack kind)]]
            exitCode := 0, world := s }) ∧
      (∀ (daysBack : String),
        (∃ n, decimalValue daysBack.data = some n ∧ -2 ^ 63 ≤ n ∧ n < 2 ^ 63) ∨
          ∃ kind, atoi daysBack.data = .error kind) := by
  have h20 : main w [exe, repoDir, project, repo] s =
      mainWithDays w repoDir project repo 20 s := rfl
  refine ⟨⟨h20, ?_⟩, ?_, ?_, ?_⟩
  · rw [h20, mainWithDays_head]
    rfl
  · intro daysBack rest n hn h1 h2
    have hm : main w (exe :: repoDir :: project :: repo :: daysBack :: rest) s =
        mainWithDays w repoDir project repo n s := by
      simp [main, atoi_of_decimal daysBack.data n hn h1 h2]
    exact ⟨hm, by rw [hm, mainWithDays_head]⟩
  · intro daysBack rest kind hk
    simp [main, hk]
  · intro daysBack
    cases h : atoi daysBack.data with
    | error kind => exact Or.inr ⟨kind, rfl⟩
    | ok n => exact Or.inl ⟨n, atoi_ok _ n h⟩

theorem main_days_argument_witness :
    (main (sampleWorld 0 "") ["exe", "repo", "ossf", "scorecard", "-7"] 0 =
        mainWithDays (sampleWorld 0 "") "repo" "ossf" "scorecard" (-7) 0 ∧
      (main (sampleWorld 0 "") ["exe", "repo", "ossf", "scorecard", "-7"] 0).trace.head? =
        some (.getCommitsFromDate "repo"
          ((sampleWorld 0 "").addDate ((sampleWorld 0 "").now 0).1 0 0 (wrapInt64 (-(-7))))
          (getCommitsFromDate (sampleWorld 0 "") "repo"
            ((sampleWorld 0 "").addDate ((sampleWorld 0 "").now 0).1 0 0 (wrapInt64 (-(-7))))
            ((sampleWorld 0 "").now 0).2).1)) ∧
      main (sampleWorld 0 "") ["exe", "repo", "ossf", "scorecard", "7 days"] 0 =
        { trace := [.println [.str "Error parsing days:",
                      .err (.numError "Atoi" "7 days" .invalid)]]
          exitCode := 0, world := 0 } :=
  ⟨(main_days_argument (sampleWorld 0 "") "exe" "repo" "ossf" "scorecard" 0).2.1 "-7" [] (-7)
      (by decide) (by decide) (by decide),
   (main_days_argument (sampleWorld 0 "") "exe" "repo" "ossf" "scorecard" 0).2.2.1 "7 days" []
      .invalid (by decide)⟩

end ScorecardCommits
